import Mathlib

/- Verification development for github-mirror (main.go): a download-coalescing
   HTTP cache.  All definitions below are shallow embeddings of the Go source;
   machine integers are modelled as Nat/Int with explicit reduction modulo
   2^32 or 2^64 where the Go code relies on fixed-width arithmetic. -/

namespace GithubMirror

/-! Bitwise helpers on 32-bit words, modelled arithmetically on Nat. -/

/-- Modulus of 32-bit words. -/
def M32 : Nat := 4294967296

/-- Bitwise combination of the low k bits of two naturals, by structural
recursion on the bit count (kernel-friendly). -/
def bitOpAux (f : Bool → Bool → Bool) : Nat → Nat → Nat → Nat
  | 0, _, _ => 0
  | k + 1, x, y =>
      (cond (f (x % 2 = 1) (y % 2 = 1)) 1 0) + 2 * bitOpAux f k (x / 2) (y / 2)

/-- 32-bit AND. -/
def land32 (x y : Nat) : Nat := bitOpAux (fun a b => a && b) 32 x y

/-- 32-bit OR. -/
def lor32 (x y : Nat) : Nat := bitOpAux (fun a b => a || b) 32 x y

/-- 32-bit XOR. -/
def lxor32 (x y : Nat) : Nat := bitOpAux (fun a b => Bool.xor a b) 32 x y

/-- 32-bit complement of x (for x < 2^32). -/
def lnot32 (x : Nat) : Nat := M32 - 1 - x

/-- Rotate the 32-bit word x left by n (for x < 2^32, n ≤ 32): the low part is
shifted up modulo 2^32 and the n bits shifted out reappear at the bottom. -/
def rotl32 (x n : Nat) : Nat := (x * 2 ^ n) % M32 + x / 2 ^ (32 - n)

/-! MD5 (Go crypto/md5) as invoked by HashString (main.go:32-36). -/

/-- Per-round shift amounts of MD5. -/
def md5S : List Nat :=
  [7, 12, 17, 22, 7, 12, 17, 22, 7, 12, 17, 22, 7, 12, 17, 22,
   5, 9, 14, 20, 5, 9, 14, 20, 5, 9, 14, 20, 5, 9, 14, 20,
   4, 11, 16, 23, 4, 11, 16, 23, 4, 11, 16, 23, 4, 11, 16, 23,
   6, 10, 15, 21, 6, 10, 15, 21, 6, 10, 15, 21, 6, 10, 15, 21]

/-- Per-round additive constants of MD5 (floor(2^32 * abs(sin(i+1)))). -/
def md5K : List Nat :=
  [0xd76aa478, 0xe8c7b756, 0x242070db, 0xc1bdceee,
   0xf57c0faf, 0x4787c62a, 0xa8304613, 0xfd469501,
   0x698098d8, 0x8b44f7af, 0xffff5bb1, 0x895cd7be,
   0x6b901122, 0xfd987193, 0xa679438e, 0x49b40821,
   0xf61e2562, 0xc040b340, 0x265e5a51, 0xe9b6c7aa,
   0xd62f105d, 0x02441453, 0xd8a1e681, 0xe7d3fbc8,
   0x21e1cde6, 0xc33707d6, 0xf4d50d87, 0x455a14ed,
   0xa9e3e905, 0xfcefa3f8, 0x676f02d9, 0x8d2a4c8a,
   0xfffa3942, 0x8771f681, 0x6d9d6122, 0xfde5380c,
   0xa4beea44, 0x4bdecfa9, 0xf6bb4b60, 0xbebfbc70,
   0x289b7ec6, 0xeaa127fa, 0xd4ef3085, 0x04881d05,
   0xd9d4d039, 0xe6db99e5, 0x1fa27cf8, 0xc4ac5665,
   0xf4292244, 0x432aff97, 0xab9423a7, 0xfc93a039,
   0x655b59c3, 0x8f0ccc92, 0xffeff47d, 0x85845dd1,
   0x6fa87e4f, 0xfe2ce6e0, 0xa3014314, 0x4e0811a1,
   0xf7537e82, 0xbd3af235, 0x2ad7d2bb, 0xeb86d391]

/-- List lookup with default 0 for the constant tables and message words. -/
def nth0 (l : List Nat) (i : Nat) : Nat := l.getD i 0

/-- The MD5 round mixing function, selected by round index. -/
def md5F (i b c d : Nat) : Nat :=
  if i < 16 then lor32 (land32 b c) (land32 (lnot32 b) d)
  else if i < 32 then lor32 (land32 d b) (land32 (lnot32 d) c)
  else if i < 48 then lxor32 b (lxor32 c d)
  else lxor32 c (lor32 b (lnot32 d))

/-- The MD5 message-word index for round i. -/
def md5G (i : Nat) : Nat :=
  if i < 16 then i
  else if i < 32 then (5 * i + 1) % 16
  else if i < 48 then (3 * i + 5) % 16
  else (7 * i) % 16

/-- One MD5 round on the state (a, b, c, d). -/
def md5Round (msg : Nat → Nat) (st : Nat × Nat × Nat × Nat) (i : Nat) :
    Nat × Nat × Nat × Nat :=
  let (a, b, c, d) := st
  let f := (md5F i b c d + a + nth0 md5K i + msg (md5G i)) % M32
  (d, (b + rotl32 f (nth0 md5S i)) % M32, b, c)

/-- The sixteen little-endian 32-bit message words of a 64-byte chunk. -/
def md5Words (chunk : List Nat) : Nat → Nat := fun j =>
  nth0 chunk (4 * j) + nth0 chunk (4 * j + 1) * 256 +
    nth0 chunk (4 * j + 2) * 65536 + nth0 chunk (4 * j + 3) * 16777216

/-- Process one 64-byte chunk: 64 rounds, then add into the running state. -/
def md5Chunk (st : Nat × Nat × Nat × Nat) (chunk : List Nat) :
    Nat × Nat × Nat × Nat :=
  let (a0, b0, c0, d0) := st
  let (a, b, c, d) := (List.range 64).foldl (md5Round (md5Words chunk)) st
  ((a0 + a) % M32, (b0 + b) % M32, (c0 + c) % M32, (d0 + d) % M32)

/-- Little-endian byte encoding of n, 8 bytes (n taken modulo 2^64). -/
def le8 (n : Nat) : List Nat := (List.range 8).map fun i => n / 256 ^ i % 256

/-- Little-endian byte encoding of n, 4 bytes (n taken modulo 2^32). -/
def le4 (n : Nat) : List Nat := (List.range 4).map fun i => n / 256 ^ i % 256

/-- MD5 padding: append 0x80, zero-pad to 56 mod 64, then the bit length. -/
def md5Pad (msg : List Nat) : List Nat :=
  msg ++ 128 :: List.replicate ((119 - msg.length % 64) % 64) 0 ++
    le8 (8 * msg.length)

/-- Split off up to k successive 64-byte chunks (structural recursion on k so
that the kernel can evaluate it). -/
def chunksAux : Nat → List Nat → List (List Nat)
  | 0, _ => []
  | k + 1, l => if 64 ≤ l.length then l.take 64 :: chunksAux k (l.drop 64) else []

/-- Split a byte list into its successive 64-byte chunks. -/
def chunks64 (l : List Nat) : List (List Nat) := chunksAux (l.length / 64 + 1) l

/-- MD5 digest (16 bytes) of a byte sequence. -/
def md5Bytes (msg : List Nat) : List Nat :=
  let (a, b, c, d) := (chunks64 (md5Pad msg)).foldl md5Chunk
    (0x67452301, 0xefcdab89, 0x98badcfe, 0x10325476)
  le4 a ++ le4 b ++ le4 c ++ le4 d

/-- UTF-8 encoding of one character, as Go produces for a byte-slice cast. -/
def utf8Bytes (c : Char) : List Nat :=
  let n := c.toNat
  if n < 128 then [n]
  else if n < 2048 then [192 + n / 64, 128 + n % 64]
  else if n < 65536 then [224 + n / 4096, 128 + n / 64 % 64, 128 + n % 64]
  else [240 + n / 262144, 128 + n / 4096 % 64, 128 + n / 64 % 64, 128 + n % 64]

/-- The UTF-8 bytes of a string. -/
def strBytes (s : String) : List Nat :=
  s.data.foldr (fun c acc => utf8Bytes c ++ acc) []

/-- Lowercase hexadecimal digit for n < 16. -/
def hexDigitChar (n : Nat) : Char :=
  if n < 10 then Char.ofNat (48 + n) else Char.ofNat (87 + n)

/-- Two lowercase hex digits of a byte, as Go percent-x prints each byte. -/
def byteHex (b : Nat) : List Char := [hexDigitChar (b / 16), hexDigitChar (b % 16)]

/-- HashString (main.go:32-36): hex-encoded MD5 of the string. -/
def HashString (s : String) : String :=
  String.mk ((md5Bytes (strBytes s)).foldr (fun b acc => byteHex b ++ acc) [])

/-- downloadDir (main.go:231-234): the entry directory for a url is
CacheDir/hash[:2]/hash[2:], joined with the path separator. -/
def downloadDir (cacheDir url : String) : String :=
  let hash := HashString url
  cacheDir ++ "/" ++ String.mk (hash.data.take 2) ++ "/" ++
    String.mk (hash.data.drop 2)

set_option maxRecDepth 10000

/-- Validation of the MD5 embedding against the standard test vector for the
empty message. -/
theorem md5_empty_vector : HashString "" = "d41d8cd98f00b204e9800998ecf8427e" := by
  decide

/-- Validation of the MD5 embedding against the standard test vector for the
message abc. -/
theorem md5_abc_vector : HashString "abc" = "900150983cd24fb0d6963f7d28e17f72" := by
  decide

/-- Every le4 encoding has exactly four bytes. -/
theorem le4_length (n : Nat) : (le4 n).length = 4 := by
  simp [le4]

/-- Every byte of an le4 encoding is below 256. -/
theorem le4_lt (n : Nat) : ∀ b ∈ le4 n, b < 256 := by
  intro b hb
  simp only [le4, List.mem_map] at hb
  obtain ⟨i, _, rfl⟩ := hb
  exact Nat.mod_lt _ (by omega)

/-- An MD5 digest has exactly sixteen bytes. -/
theorem md5Bytes_length (msg : List Nat) : (md5Bytes msg).length = 16 := by
  unfold md5Bytes
  obtain ⟨a, b, c, d⟩ := (chunks64 (md5Pad msg)).foldl md5Chunk
    (0x67452301, 0xefcdab89, 0x98badcfe, 0x10325476)
  simp [le4_length]

/-- Every byte of an MD5 digest is below 256. -/
theorem md5Bytes_lt (msg : List Nat) : ∀ b ∈ md5Bytes msg, b < 256 := by
  unfold md5Bytes
  obtain ⟨a, b, c, d⟩ := (chunks64 (md5Pad msg)).foldl md5Chunk
    (0x67452301, 0xefcdab89, 0x98badcfe, 0x10325476)
  intro x hx
  simp only [List.mem_append] at hx
  rcases hx with ((h | h) | h) | h <;> exact le4_lt _ _ h

/-- Folding byteHex over a byte list yields two characters per byte. -/
theorem hexFold_length (l : List Nat) :
    (l.foldr (fun b acc => byteHex b ++ acc) []).length = 2 * l.length := by
  induction l with
  | nil => simp
  | cons x xs ih =>
      simp only [List.foldr_cons, List.length_append, ih, List.length_cons]
      simp only [byteHex, List.length_cons, List.length_nil]
      omega

/-- Every character of the byteHex fold comes from some byte of the list. -/
theorem hexFold_mem (l : List Nat) (c : Char)
    (hc : c ∈ l.foldr (fun b acc => byteHex b ++ acc) []) :
    ∃ b ∈ l, c ∈ byteHex b := by
  induction l with
  | nil => simp at hc
  | cons x xs ih =>
      simp only [List.foldr_cons, List.mem_append] at hc
      rcases hc with h | h
      · exact ⟨x, List.mem_cons_self x xs, h⟩
      · obtain ⟨b, hb, hcb⟩ := ih h
        exact ⟨b, List.mem_cons_of_mem x hb, hcb⟩

/-- The two characters printed for a byte below 256 are hex digits. -/
theorem byteHex_isHex (b : Nat) (hb : b < 256) :
    ∀ c ∈ byteHex b, ∃ n, n < 16 ∧ c = hexDigitChar n := by
  intro c hc
  simp only [byteHex, List.mem_cons, List.not_mem_nil, or_false] at hc
  rcases hc with rfl | rfl
  · exact ⟨b / 16, by omega, rfl⟩
  · exact ⟨b % 16, Nat.mod_lt _ (by omega), rfl⟩

/-- C9: for every origin URL the resource key HashString url is a
deterministically computed string of exactly 32 lowercase hexadecimal
characters (16 MD5 bytes, i.e. a 128-bit hash), and the on-disk entry path is
cacheDir/(first 2 hex chars)/(remaining 30 hex chars); the path is a pure
function of the URL, so the same URL always maps to the same path. -/
theorem hash_key_and_path_layout : ∀ (cacheDir url : String),
    (HashString url).data.length = 32 ∧
    (∀ c ∈ (HashString url).data, ∃ n, n < 16 ∧ c = hexDigitChar n) ∧
    downloadDir cacheDir url =
      cacheDir ++ "/" ++ String.mk ((HashString url).data.take 2) ++ "/" ++
        String.mk ((HashString url).data.drop 2) ∧
    ((HashString url).data.take 2).length = 2 ∧
    ((HashString url).data.drop 2).length = 30 := by
  intro cacheDir url
  have hlen : (HashString url).data.length = 32 := by
    show ((md5Bytes (strBytes url)).foldr (fun b acc => byteHex b ++ acc) []).length = 32
    rw [hexFold_length, md5Bytes_length]
  refine ⟨hlen, ?_, rfl, ?_, ?_⟩
  · intro c hc
    have hc2 : c ∈ (md5Bytes (strBytes url)).foldr (fun b acc => byteHex b ++ acc) [] := hc
    obtain ⟨b, hb, hcb⟩ := hexFold_mem _ _ hc2
    exact byteHex_isHex b (md5Bytes_lt _ b hb) c hcb
  · rw [List.length_take, hlen]; omega
  · rw [List.length_drop, hlen]

/-! Filesystem model for one resource entry and the download function
(main.go:145-229).  The model tracks the temporary file, the target entry
directory, the payload file cached.file and the metadata file meta.json of the
single key being fetched; every other key's entry is untouched by download. -/

/-- The metadata record written to meta.json (main.go:221-226) and read back
by ServeFile (main.go:284-289).  Go int64 fields are modelled as Int. -/
structure Meta where
  filename : String
  size : Int
  url : String
  time : Int
deriving DecidableEq, Repr

/-- On-disk state of one resource entry: the staging file
CacheDir/hash.tmp, the entry directory, and its two files. -/
structure EntryFS where
  tmp : Option (List Nat)
  dirExists : Bool
  payload : Option (List Nat)
  meta : Option Meta
deriving DecidableEq, Repr

/-- Outcome of req.Do() (main.go:162): either a transport error or a response
with status code, status text, optional Content-Length and body bytes. -/
inductive HttpResult
| transportError (msg : String)
| response (statusCode : Nat) (status : String) (contentLength : Option Nat)
    (body : List Nat)
deriving DecidableEq, Repr

/-- Fault injection for the fallible filesystem operations of download, in
source order; none means the operation succeeds. -/
structure FsFaults where
  createErr : Option String
  copyErr : Option String
  closeErr : Option String
  mkdirErr : Option String
  renameErr : Option String
  writeMetaErr : Option String
deriving DecidableEq, Repr

/-- All filesystem operations succeed. -/
def noFaults : FsFaults := ⟨none, none, none, none, none, none⟩

/-- Observable events of one download invocation, in execution order. -/
inductive DlEvent
| httpGet (url : String)
| createTmp
| dashboardSet
| copyBody
| closeTmp
| mkdirTarget
| renameTmpToCached
| writeMetaFile (m : Meta)
| removeTmp
| removeTargetDir
| dashboardDelete
deriving DecidableEq, Repr

/-- Effect of os.Remove(tmpFilename). -/
def removeTmpFs (fs : EntryFS) : EntryFS := { fs with tmp := none }

/-- Effect of os.RemoveAll(targetDir): the entry directory and both of its
files disappear. -/
def removeTargetFs (fs : EntryFS) : EntryFS :=
  { fs with dirExists := false, payload := none, meta := none }

/-- download (main.go:145-229): issue the GET, reject a non-200 status before
any filesystem activity, stream the body to the staging file, then commit by
MkdirAll, a single os.Rename of the staged payload to cached.file, and the
meta.json write last.  The deferred cleanup (main.go:180-185) removes the
staging file and the whole target directory on any error return after it is
registered; the dashboard entry is set after os.Create and deleted on every
later exit (main.go:199-200, deferred calls run in reverse order).  Returns
the error (none for nil), the resulting filesystem state, and the event
trace. -/
def download (resp : HttpResult) (faults : FsFaults) (fs : EntryFS)
    (url filename : String) (now : Int) :
    Option String × EntryFS × List DlEvent :=
  match resp with
  | .transportError e => (some e, fs, [.httpGet url])
  | .response code status _clen body =>
    if code ≠ 200 then (some ("remote: " ++ status), fs, [.httpGet url])
    else
      match faults.createErr with
      | some e =>
          (some ("create file: " ++ e), removeTargetFs (removeTmpFs fs),
           [.httpGet url, .createTmp, .removeTmp, .removeTargetDir])
      | none =>
        let fs1 := { fs with tmp := some [] }
        match faults.copyErr with
        | some e =>
            (some e, removeTargetFs (removeTmpFs fs1),
             [.httpGet url, .createTmp, .dashboardSet, .copyBody, .closeTmp,
              .removeTmp, .dashboardDelete, .removeTmp, .removeTargetDir])
        | none =>
          let fs2 := { fs1 with tmp := some body }
          let size : Int := body.length
          match faults.closeErr with
          | some e =>
              (some e, removeTargetFs (removeTmpFs fs2),
               [.httpGet url, .createTmp, .dashboardSet, .copyBody, .closeTmp,
                .dashboardDelete, .removeTmp, .removeTargetDir])
          | none =>
            match faults.mkdirErr with
            | some e =>
                (some e, removeTargetFs (removeTmpFs fs2),
                 [.httpGet url, .createTmp, .dashboardSet, .copyBody, .closeTmp,
                  .mkdirTarget, .dashboardDelete, .removeTmp, .removeTargetDir])
            | none =>
              let fs3 := { fs2 with dirExists := true }
              match faults.renameErr with
              | some e =>
                  (some e, removeTargetFs (removeTmpFs fs3),
                   [.httpGet url, .createTmp, .dashboardSet, .copyBody,
                    .closeTmp, .mkdirTarget, .renameTmpToCached,
                    .dashboardDelete, .removeTmp, .removeTargetDir])
              | none =>
                let fs4 := { fs3 with payload := fs3.tmp, tmp := none }
                let m : Meta := ⟨filename, size, url, now⟩
                match faults.writeMetaErr with
                | some e =>
                    (some e, removeTargetFs (removeTmpFs fs4),
                     [.httpGet url, .createTmp, .dashboardSet, .copyBody,
                      .closeTmp, .mkdirTarget, .renameTmpToCached,
                      .writeMetaFile m, .dashboardDelete, .removeTmp,
                      .removeTargetDir])
                | none =>
                    (none, { fs4 with meta := some m },
                     [.httpGet url, .createTmp, .dashboardSet, .copyBody,
                      .closeTmp, .mkdirTarget, .renameTmpToCached,
                      .writeMetaFile m, .dashboardDelete])

/-- IsCached (main.go:236-239): os.Stat of the entry directory alone, with no
look at the metadata file. -/
def IsCached (fs : EntryFS) : Bool := fs.dirExists

/-- DownloadAndWait (main.go:241-273) as executed when no other caller is
active for the key: the empty-filename default (main.go:242-244), the
meta.json fast-path stat under the lock (main.go:248-251), and otherwise the
call to download.  The interleaving of concurrent callers is modelled
separately below. -/
def DownloadAndWaitSeq (resp : HttpResult) (faults : FsFaults) (fs : EntryFS)
    (url filename : String) (now : Int) :
    Option String × EntryFS × List DlEvent :=
  let filename := if filename = "" then "cached.file" else filename
  if fs.meta.isSome then (none, fs, [])
  else download resp faults fs url filename now

/-- Recogniser for outbound request events. -/
def isGetEvent : DlEvent → Bool
  | .httpGet _ => true
  | _ => false

/-- C6: on a successful fetch the commit sequence performs a single rename of
the staged payload into the entry directory and only afterwards writes the
metadata file; the final entry holds the payload under cached.file and a
meta.json whose size field equals the number of bytes copied. -/
theorem download_commit_metadata_last (fs : EntryFS) (url filename : String)
    (now : Int) (status : String) (clen : Option Nat) (body : List Nat) :
    ∃ fs2 tr,
      download (.response 200 status clen body) noFaults fs url filename now =
        (none, fs2, tr) ∧
      fs2.dirExists = true ∧
      fs2.payload = some body ∧
      fs2.meta = some ⟨filename, (body.length : Int), url, now⟩ ∧
      ∃ t1 t2, tr = t1 ++ DlEvent.renameTmpToCached :: t2 ∧
        DlEvent.renameTmpToCached ∉ t1 ∧ DlEvent.renameTmpToCached ∉ t2 ∧
        (∀ m, DlEvent.writeMetaFile m ∉ t1) ∧
        DlEvent.writeMetaFile ⟨filename, (body.length : Int), url, now⟩ ∈ t2 := by
  refine ⟨_, _, rfl, rfl, rfl, rfl, ?_⟩
  exact ⟨[.httpGet url, .createTmp, .dashboardSet, .copyBody, .closeTmp, .mkdirTarget],
    [.writeMetaFile ⟨filename, (body.length : Int), url, now⟩, .dashboardDelete],
    rfl, by simp, by simp, by simp, by simp⟩

/-- C7: a response with a status other than 200 makes download return the
terminal error remote: status with no retry (the trace holds exactly one
outbound request) and without touching the filesystem, so a key that had no
entry directory before still has none afterwards. -/
theorem download_non200_terminal (faults : FsFaults) (fs : EntryFS)
    (url filename : String) (now : Int) (code : Nat) (status : String)
    (clen : Option Nat) (body : List Nat)
    (hcode : code ≠ 200) (hdir : fs.dirExists = false) :
    download (.response code status clen body) faults fs url filename now =
      (some ("remote: " ++ status), fs, [.httpGet url]) ∧
    (download (.response code status clen body) faults fs url filename
        now).2.1.dirExists = false ∧
    ((download (.response code status clen body) faults fs url filename
        now).2.2.filter isGetEvent).length = 1 := by
  have h : download (.response code status clen body) faults fs url filename now =
      (some ("remote: " ++ status), fs, [.httpGet url]) := by
    show (if code ≠ 200 then _ else _) = _
    simp [hcode]
  exact ⟨h, by rw [h]; exact hdir, by rw [h]; rfl⟩

/-- Witness for download_non200_terminal at a concrete 404 response on an
absent entry. -/
theorem download_non200_terminal_witness :
    download (.response 404 "404 Not Found" none []) noFaults
        ⟨none, false, none, none⟩ "https://github.com/x" "x.txt" 1000 =
      (some "remote: 404 Not Found", ⟨none, false, none, none⟩,
        [.httpGet "https://github.com/x"]) ∧
    (download (.response 404 "404 Not Found" none []) noFaults
        ⟨none, false, none, none⟩ "https://github.com/x" "x.txt"
        1000).2.1.dirExists = false ∧
    ((download (.response 404 "404 Not Found" none []) noFaults
        ⟨none, false, none, none⟩ "https://github.com/x" "x.txt"
        1000).2.2.filter isGetEvent).length = 1 :=
  download_non200_terminal noFaults ⟨none, false, none, none⟩
    "https://github.com/x" "x.txt" 1000 404 "404 Not Found" none []
    (by decide) rfl

/-- C10: DownloadAndWait substitutes the fixed name cached.file for an empty
display filename before doing anything else, so a call with an empty filename
behaves exactly like a call with cached.file, and on a successful fetch the
metadata records the name cached.file rather than the empty string. -/
theorem downloadAndWait_default_filename (resp : HttpResult) (faults : FsFaults)
    (fs : EntryFS) (url : String) (now : Int) :
    DownloadAndWaitSeq resp faults fs url "" now =
      DownloadAndWaitSeq resp faults fs url "cached.file" now ∧
    (∀ status clen body, resp = .response 200 status clen body →
      faults = noFaults → fs.meta = none →
      (DownloadAndWaitSeq resp faults fs url "" now).2.1.meta =
        some ⟨"cached.file", ((body : List Nat).length : Int), url, now⟩) := by
  constructor
  · rfl
  · rintro status clen body rfl rfl hmeta
    simp only [DownloadAndWaitSeq, hmeta, Option.isSome_none, Bool.false_eq_true,
      if_false]
    rfl

/-- Witness for downloadAndWait_default_filename on a concrete successful
response over an empty cache entry. -/
theorem downloadAndWait_default_filename_witness :
    DownloadAndWaitSeq (.response 200 "200 OK" (some 2) [1, 2]) noFaults
        ⟨none, false, none, none⟩ "u" "" 5 =
      DownloadAndWaitSeq (.response 200 "200 OK" (some 2) [1, 2]) noFaults
        ⟨none, false, none, none⟩ "u" "cached.file" 5 ∧
    (DownloadAndWaitSeq (.response 200 "200 OK" (some 2) [1, 2]) noFaults
        ⟨none, false, none, none⟩ "u" "" 5).2.1.meta =
      some ⟨"cached.file", (2 : Int), "u", 5⟩ := by
  have h := downloadAndWait_default_filename (.response 200 "200 OK" (some 2) [1, 2])
    noFaults ⟨none, false, none, none⟩ "u" 5
  exact ⟨h.1, h.2 "200 OK" (some 2) [1, 2] rfl rfl rfl⟩

/-- C4 counterexample: an entry directory that exists while holding no
metadata file is nevertheless reported as cached by IsCached, so the
existence check of the code is not gated on a valid metadata record. -/
theorem isCached_counterexample :
    IsCached ⟨none, true, none, none⟩ = true ∧
    (EntryFS.meta ⟨none, true, none, none⟩).isSome = false := by
  decide

/-- C4 amended: the fast-path cached check actually used by DownloadAndWait
trusts only the presence of the meta.json file: when it is present the call
returns success immediately with no events, and when it is absent the call
proceeds to a fresh download even if the entry directory already exists;
the separate IsCached method instead reports true whenever the entry
directory exists, metadata or not. -/
theorem cached_check_semantics (resp : HttpResult) (faults : FsFaults)
    (fs : EntryFS) (url filename : String) (now : Int) :
    (fs.meta.isSome = true →
      DownloadAndWaitSeq resp faults fs url filename now = (none, fs, [])) ∧
    (fs.meta = none →
      DownloadAndWaitSeq resp faults fs url filename now =
        download resp faults fs url
          (if filename = "" then "cached.file" else filename) now) ∧
    IsCached fs = fs.dirExists := by
  refine ⟨fun h => ?_, fun h => ?_, rfl⟩
  · simp [DownloadAndWaitSeq, h]
  · simp [DownloadAndWaitSeq, h]

/-- Witness for cached_check_semantics: a cached entry short-circuits, and an
uncached entry whose directory exists still goes to download. -/
theorem cached_check_semantics_witness :
    DownloadAndWaitSeq (.response 200 "200 OK" none []) noFaults
        ⟨none, true, some [], some ⟨"a", 0, "u", 0⟩⟩ "u" "a" 7 =
      (none, ⟨none, true, some [], some ⟨"a", 0, "u", 0⟩⟩, []) ∧
    DownloadAndWaitSeq (.response 200 "200 OK" none []) noFaults
        ⟨none, true, none, none⟩ "u" "a" 7 =
      download (.response 200 "200 OK" none []) noFaults
        ⟨none, true, none, none⟩ "u" "a" 7 := by
  constructor
  · exact (cached_check_semantics (.response 200 "200 OK" none []) noFaults
      ⟨none, true, some [], some ⟨"a", 0, "u", 0⟩⟩ "u" "a" 7).1 rfl
  · have h := (cached_check_semantics (.response 200 "200 OK" none []) noFaults
      ⟨none, true, none, none⟩ "u" "a" 7).2.1 rfl
    simpa using h

/-! Eviction sweep: Clean (main.go:312-331), built on filepath.Walk. -/

/-- One item visited by filepath.Walk in visit order: its path, the directory
containing it, its base name, its modification time (Unix seconds) and
whether the walk delivers a non-nil access error for it. -/
structure WalkItem where
  path : String
  dir : String
  name : String
  modTime : Int
  accessErr : Bool
deriving DecidableEq, Repr

/-- Clean (main.go:314-331) over the walk items.  The callback prints the
failure and returns the non-nil access error, and a callback error makes
filepath.Walk stop the whole walk; otherwise items named meta.json whose age
now - modTime exceeds keep get their directory removed (os.RemoveAll on
filepath.Dir(path)).  Returns the removed directories in order and the error
the walk stopped with, if any. -/
def cleanWalk (now keep : Int) : List WalkItem → List String × Option String
  | [] => ([], none)
  | it :: rest =>
      if it.accessErr then ([], some it.path)
      else if it.name ≠ "meta.json" then cleanWalk now keep rest
      else if now - it.modTime > keep then
        (it.dir :: (cleanWalk now keep rest).1, (cleanWalk now keep rest).2)
      else cleanWalk now keep rest

/-- C3 counterexample: with an access error on the first visited item and a
stale meta.json (age 100 over retention 3) behind it, the sweep stops at the
error and removes nothing, so an error does abort the rest of the sweep and
the stale entry survives. -/
theorem clean_counterexample :
    cleanWalk 100 3 [⟨"data/xx", "data", "xx", 0, true⟩,
        ⟨"data/ab/cdef/meta.json", "data/ab/cdef", "meta.json", 0, false⟩] =
      ([], some "data/xx") ∧
    ((100 : Int) - 0 > 3) = True := by
  constructor
  · rfl
  · simp

/-- C3 amended: a walk error is logged but returned from the callback, which
aborts the remainder of the sweep at the first error (the sweep result
carries that error); in a sweep where no walk error occurs, the walk runs to
completion and removes exactly the directories of the meta.json items whose
modification-time age exceeds the retention. -/
theorem clean_sweep_semantics (now keep : Int) (items : List WalkItem) :
    ((∀ it ∈ items, it.accessErr = false) →
      (cleanWalk now keep items).2 = none ∧
      (cleanWalk now keep items).1 =
        (items.filter fun it =>
          decide (it.name = "meta.json" ∧ now - it.modTime > keep)).map
          (fun it => it.dir)) ∧
    ((∃ it ∈ items, it.accessErr = true) →
      ((cleanWalk now keep items).2).isSome = true) := by
  induction items with
  | nil => simp [cleanWalk]
  | cons it rest ih =>
      constructor
      · intro h
        have hhd : it.accessErr = false := h it (List.mem_cons_self it rest)
        have htl : ∀ x ∈ rest, x.accessErr = false :=
          fun x hx => h x (List.mem_cons_of_mem it hx)
        obtain ⟨ih1, ih2⟩ := (ih.1) htl, ih.2
        by_cases hname : it.name = "meta.json"
        · by_cases hage : now - it.modTime > keep
          · simp [cleanWalk, hhd, hname, hage, (ih.1 htl).1, (ih.1 htl).2]
          · simp [cleanWalk, hhd, hname, hage, (ih.1 htl).1, (ih.1 htl).2]
        · simp [cleanWalk, hhd, hname, (ih.1 htl).1, (ih.1 htl).2]
      · rintro ⟨x, hx, hxe⟩
        rcases List.mem_cons.mp hx with rfl | hx2
        · simp [cleanWalk, hxe]
        · by_cases hhd : it.accessErr
          · simp [cleanWalk, hhd]
          · have h2 := ih.2 ⟨x, hx2, hxe⟩
            by_cases hname : it.name = "meta.json"
            · by_cases hage : now - it.modTime > keep
              · simpa [cleanWalk, hhd, hname, hage] using h2
              · simpa [cleanWalk, hhd, hname, hage] using h2
            · simpa [cleanWalk, hhd, hname] using h2

/-- Witness for clean_sweep_semantics: an error-free sweep removes exactly
the stale entry, and a sweep with an access error stops with it. -/
theorem clean_sweep_semantics_witness :
    (cleanWalk 100 3 [⟨"data/ab/cdef/meta.json", "data/ab/cdef", "meta.json", 0,
        false⟩,
      ⟨"data/ab/eeee/meta.json", "data/ab/eeee", "meta.json", 99, false⟩]).2 =
        none ∧
    (cleanWalk 100 3 [⟨"data/ab/cdef/meta.json", "data/ab/cdef", "meta.json", 0,
        false⟩,
      ⟨"data/ab/eeee/meta.json", "data/ab/eeee", "meta.json", 99, false⟩]).1 =
        ["data/ab/cdef"] ∧
    ((cleanWalk 100 3 [⟨"data/xx", "data", "xx", 0, true⟩]).2).isSome = true := by
  have h1 := (clean_sweep_semantics 100 3
    [⟨"data/ab/cdef/meta.json", "data/ab/cdef", "meta.json", 0, false⟩,
     ⟨"data/ab/eeee/meta.json", "data/ab/eeee", "meta.json", 99, false⟩]).1
    (by decide)
  have h2 := (clean_sweep_semantics 100 3
    [⟨"data/xx", "data", "xx", 0, true⟩]).2
    ⟨⟨"data/xx", "data", "xx", 0, true⟩, by decide, rfl⟩
  exact ⟨h1.1, by rw [h1.2]; decide, h2⟩

/-! Metadata persistence: json.Marshal of the metadata map (main.go:221-226)
and json.Unmarshal into the info struct of ServeFile (main.go:284-290).
The file content is modelled as a character list.  Go json.Marshal emits the
map keys in sorted order (filename, size, time, url) and HTML-escapes string
values; json.Unmarshal of an object fills matching struct fields, leaves
missing fields at their zero values, takes the last of duplicate keys, and
fails on a type mismatch. -/

/-- The opening brace character. -/
def openBrace : Char := Char.ofNat 123

/-- The closing brace character. -/
def closeBrace : Char := Char.ofNat 125

/-- Decimal digit character for n below 10. -/
def digitCh (n : Nat) : Char := Char.ofNat (48 + n)

/-- Decimal digit characters of n, most significant first, with structural
fuel (n + 1 is always enough). -/
def natDigitsAux : Nat → Nat → List Char
  | 0, _ => []
  | fuel + 1, n =>
      if n < 10 then [digitCh n]
      else natDigitsAux fuel (n / 10) ++ [digitCh (n % 10)]

/-- Decimal digit characters of a natural number. -/
def natDigits (n : Nat) : List Char := natDigitsAux (n + 1) n

/-- Decimal text of an int64, with a leading minus sign when negative. -/
def intDigits (i : Int) : List Char :=
  if i < 0 then '-' :: natDigits i.natAbs else natDigits i.toNat

/-- Four hex digits of n below 65536, as in a JSON backslash-u escape. -/
def hex4 (n : Nat) : List Char :=
  [hexDigitChar (n / 4096 % 16), hexDigitChar (n / 256 % 16),
   hexDigitChar (n / 16 % 16), hexDigitChar (n % 16)]

/-- Go json string escaping of one character (with the default HTML escaping
of angle brackets and ampersands). -/
def jsonEscapeChar (c : Char) : List Char :=
  if c = '"' then ['\\', '"']
  else if c = '\\' then ['\\', '\\']
  else if c = '\n' then ['\\', 'n']
  else if c = '\r' then ['\\', 'r']
  else if c = '\t' then ['\\', 't']
  else if c.toNat < 32 ∨ c = '<' ∨ c = '>' ∨ c = '&' ∨ c.toNat = 8232 ∨
      c.toNat = 8233 then
    '\\' :: 'u' :: hex4 c.toNat
  else [c]

/-- JSON string literal for s, quotes included. -/
def encStr (s : String) : List Char :=
  '"' :: s.data.foldr (fun c acc => jsonEscapeChar c ++ acc) [] ++ ['"']

/-- A JSON object key followed by a colon. -/
def keyColon (k : String) : List Char := '"' :: k.data ++ ['"', ':']

/-- json.Marshal of the metadata map written by download (main.go:221-226):
an object with the keys in sorted order filename, size, time, url. -/
def marshalMeta (m : Meta) : List Char :=
  openBrace ::
    (keyColon "filename" ++ encStr m.filename ++ [','] ++
     keyColon "size" ++ intDigits m.size ++ [','] ++
     keyColon "time" ++ intDigits m.time ++ [','] ++
     keyColon "url" ++ encStr m.url) ++ [closeBrace]

/-- Decimal digit test on a character. -/
def isDigitCh (c : Char) : Bool := 48 ≤ c.toNat && c.toNat ≤ 57

/-- Consume a run of decimal digits, accumulating their value. -/
def parseNatAux : List Char → Nat → Nat × List Char
  | [], acc => (acc, [])
  | c :: cs, acc =>
      if isDigitCh c then parseNatAux cs (acc * 10 + (c.toNat - 48))
      else (acc, c :: cs)

/-- Parse a JSON integer (optional minus sign, at least one digit). -/
def parseIntLit : List Char → Option (Int × List Char)
  | [] => none
  | c :: cs =>
      if c = '-' then
        match cs with
        | [] => none
        | c2 :: _ =>
            if isDigitCh c2 then
              some (-(((parseNatAux cs 0).1 : Int)), (parseNatAux cs 0).2)
            else none
      else if isDigitCh c then
        some (((parseNatAux (c :: cs) 0).1 : Int), (parseNatAux (c :: cs) 0).2)
      else none

/-- Value of a hex digit character, if it is one. -/
def hexVal (c : Char) : Option Nat :=
  if 48 ≤ c.toNat ∧ c.toNat ≤ 57 then some (c.toNat - 48)
  else if 97 ≤ c.toNat ∧ c.toNat ≤ 102 then some (c.toNat - 87)
  else if 65 ≤ c.toNat ∧ c.toNat ≤ 70 then some (c.toNat - 55)
  else none

/-- Parse the body of a JSON string literal after the opening quote,
accumulating decoded characters in reverse. -/
def parseStrAux : List Char → List Char → Option (String × List Char)
  | [], _ => none
  | c :: cs, acc =>
      if c = '"' then some (String.mk acc.reverse, cs)
      else if c = '\\' then
        match cs with
        | [] => none
        | e :: cs2 =>
            if e = '"' then parseStrAux cs2 ('"' :: acc)
            else if e = '\\' then parseStrAux cs2 ('\\' :: acc)
            else if e = 'n' then parseStrAux cs2 ('\n' :: acc)
            else if e = 'r' then parseStrAux cs2 ('\r' :: acc)
            else if e = 't' then parseStrAux cs2 ('\t' :: acc)
            else if e = 'u' then
              match cs2 with
              | h1 :: h2 :: h3 :: h4 :: cs3 =>
                  match hexVal h1, hexVal h2, hexVal h3, hexVal h4 with
                  | some v1, some v2, some v3, some v4 =>
                      parseStrAux cs3
                        (Char.ofNat (v1 * 4096 + v2 * 256 + v3 * 16 + v4) :: acc)
                  | _, _, _, _ => none
              | _ => none
            else none
      else parseStrAux cs (c :: acc)

/-- Parse a JSON string literal, opening quote included. -/
def parseStringLit : List Char → Option (String × List Char)
  | [] => none
  | c :: cs => if c = '"' then parseStrAux cs [] else none

/-- JSON values produced by this metadata file: strings and integers. -/
inductive JVal
| jstr (s : String)
| jnum (i : Int)
deriving DecidableEq, Repr

/-- Parse one JSON value of the metadata object. -/
def parseValue (cs : List Char) : Option (JVal × List Char) :=
  match cs with
  | [] => none
  | c :: _ =>
      if c = '"' then (parseStringLit cs).map fun p => (JVal.jstr p.1, p.2)
      else (parseIntLit cs).map fun p => (JVal.jnum p.1, p.2)

/-- Separator found after one object member: a comma announcing further
members, or the closing brace. -/
inductive MemberSep
| more (rest : List Char)
| done (rest : List Char)
deriving DecidableEq, Repr

/-- Parse one member of a JSON object (key, colon, value) together with the
separator that follows it. -/
def parseMemberStep (cs : List Char) : Option ((String × JVal) × MemberSep) := do
  let (k, cs1) ← parseStringLit cs
  match cs1 with
  | [] => none
  | c0 :: cs2 =>
      if c0 = ':' then do
        let (v, cs3) ← parseValue cs2
        match cs3 with
        | [] => none
        | c :: cs4 =>
            if c = ',' then some ((k, v), .more cs4)
            else if c = closeBrace then some ((k, v), .done cs4)
            else none
      else none

/-- Parse the members of a JSON object after the opening brace, ending at the
closing brace; fuel bounds the number of members. -/
def parseMembers : Nat → List Char → Option (List (String × JVal) × List Char)
  | 0, _ => none
  | fuel + 1, cs =>
      match parseMemberStep cs with
      | none => none
      | some (kv, .more rest) =>
          (parseMembers fuel rest).bind fun p => some (kv :: p.1, p.2)
      | some (kv, .done rest) => some ([kv], rest)

/-- Parse a whole JSON object document. -/
def parseJsonObj (cs : List Char) : Option (List (String × JVal)) :=
  match cs with
  | [] => none
  | c :: cs1 =>
      if c = openBrace then
        if cs1 = [closeBrace] then some []
        else
          match parseMembers cs1.length cs1 with
          | some (ms, []) => some ms
          | _ => none
      else none

/-- Last binding of a key in an object (Go Unmarshal: last duplicate wins). -/
def lookupLast (k : String) (ms : List (String × JVal)) : Option JVal :=
  ((ms.filter fun p => p.1 == k).getLast?).map fun p => p.2

/-- A string-typed struct field: zero value when absent, error on a
non-string value. -/
def fieldStr (k : String) (ms : List (String × JVal)) : Option String :=
  match lookupLast k ms with
  | none => some ""
  | some (.jstr s) => some s
  | some _ => none

/-- An integer-typed struct field: zero value when absent, error on a
non-number value. -/
def fieldInt (k : String) (ms : List (String × JVal)) : Option Int :=
  match lookupLast k ms with
  | none => some 0
  | some (.jnum i) => some i
  | some _ => none

/-- json.Unmarshal of the metadata file bytes into the info struct of
ServeFile (main.go:284-290). -/
def parseMeta (cs : List Char) : Option Meta := do
  let ms ← parseJsonObj cs
  let fn ← fieldStr "filename" ms
  let sz ← fieldInt "size" ms
  let u ← fieldStr "url" ms
  let t ← fieldInt "time" ms
  pure ⟨fn, sz, u, t⟩

/-- The bytes the commit path put into meta.json of a committed entry. -/
def metaFileBytes (fs : EntryFS) : Option (List Char) := fs.meta.map marshalMeta

/-- The metadata ServeFile recovers from an entry: read meta.json and
unmarshal it. -/
def readMetaFromEntry (fs : EntryFS) : Option Meta :=
  match metaFileBytes fs with
  | none => none
  | some bs => parseMeta bs

/-- Characters that Go json string escaping leaves unchanged. -/
def plainChar (c : Char) : Prop :=
  32 ≤ c.toNat ∧ c ≠ '"' ∧ c ≠ '\\' ∧ c ≠ '<' ∧ c ≠ '>' ∧ c ≠ '&' ∧
    c.toNat ≠ 8232 ∧ c.toNat ≠ 8233

instance (c : Char) : Decidable (plainChar c) := by
  unfold plainChar; infer_instance

/-- Escaping is the identity on plain characters. -/
theorem jsonEscapeChar_plain (c : Char) (h : plainChar c) :
    jsonEscapeChar c = [c] := by
  obtain ⟨h1, h2, h3, h4, h5, h6, h7, h8⟩ := h
  have hn : c ≠ '\n' := fun hc => absurd h1 (by rw [hc]; decide)
  have hr : c ≠ '\r' := fun hc => absurd h1 (by rw [hc]; decide)
  have ht : c ≠ '\t' := fun hc => absurd h1 (by rw [hc]; decide)
  unfold jsonEscapeChar
  rw [if_neg h2, if_neg h3, if_neg hn, if_neg hr, if_neg ht, if_neg]
  push_neg
  exact ⟨by omega, h4, h5, h6, h7, h8⟩

/-- The escape fold is the identity on fully plain character lists. -/
theorem escFold_plain (l : List Char) (h : ∀ c ∈ l, plainChar c) :
    l.foldr (fun c acc => jsonEscapeChar c ++ acc) [] = l := by
  induction l with
  | nil => rfl
  | cons c cs ih =>
      simp only [List.foldr_cons, jsonEscapeChar_plain c (h c (by simp)),
        ih fun x hx => h x (by simp [hx]), List.cons_append, List.nil_append]

/-- A plain string encodes to its characters between two quotes. -/
theorem encStr_append (s : String) (h : ∀ c ∈ s.data, plainChar c)
    (rest : List Char) : encStr s ++ rest = '"' :: (s.data ++ '"' :: rest) := by
  simp [encStr, escFold_plain s.data h]

/-- A key with its colon, in cons-normalized form. -/
theorem keyColon_append (k : String) (rest : List Char) :
    keyColon k ++ rest = '"' :: (k.data ++ '"' :: ':' :: rest) := by
  simp [keyColon]

/-- Rebuilding a string from its own characters gives it back. -/
theorem mk_data_eq (s : String) : String.mk s.data = s := by
  cases s; rfl

/-- The string parser consumes a plain body up to the closing quote. -/
theorem parseStrAux_plain (l : List Char) (hl : ∀ c ∈ l, plainChar c) :
    ∀ (acc rest : List Char),
      parseStrAux (l ++ '"' :: rest) acc =
        some (String.mk (acc.reverse ++ l), rest) := by
  induction l with
  | nil =>
      intro acc rest
      rw [List.nil_append, parseStrAux.eq_def]
      simp
  | cons c cs ih =>
      intro acc rest
      have hc := hl c (by simp)
      have hq : c ≠ '"' := hc.2.1
      have hb : c ≠ '\\' := hc.2.2.1
      rw [List.cons_append, parseStrAux.eq_def]
      simp only [hq, hb, if_false, reduceCtorEq, ite_false]
      rw [ih (fun x hx => hl x (by simp [hx])) (c :: acc) rest]
      simp

/-- Parsing an encoded plain string literal returns the string and the rest. -/
theorem parseStringLit_plain (s : String) (h : ∀ c ∈ s.data, plainChar c)
    (rest : List Char) :
    parseStringLit ('"' :: (s.data ++ '"' :: rest)) = some (s, rest) := by
  simp only [parseStringLit, if_pos rfl]
  rw [parseStrAux_plain s.data h [] rest]
  simp [mk_data_eq]

/-- The character for a digit below ten has the expected code point. -/
theorem digitCh_toNat (n : Nat) (h : n < 10) : (digitCh n).toNat = 48 + n := by
  interval_cases n <;> decide

/-- The character for a digit below ten passes the digit test. -/
theorem isDigitCh_digitCh (n : Nat) (h : n < 10) :
    isDigitCh (digitCh n) = true := by
  interval_cases n <;> decide

/-- All characters printed for a natural number are decimal digits. -/
theorem natDigitsAux_digits (fuel : Nat) :
    ∀ n, n < fuel → ∀ c ∈ natDigitsAux fuel n, isDigitCh c = true := by
  induction fuel with
  | zero => intro n hn; omega
  | succ f ih =>
      intro n _ c hc
      unfold natDigitsAux at hc
      by_cases h10 : n < 10
      · rw [if_pos h10] at hc
        simp only [List.mem_singleton] at hc
        subst hc
        exact isDigitCh_digitCh n h10
      · rw [if_neg h10] at hc
        rcases List.mem_append.mp hc with h | h
        · exact ih (n / 10) (by omega) c h
        · simp only [List.mem_singleton] at h
          subst h
          exact isDigitCh_digitCh (n % 10) (by omega)

/-- Folding the decimal accumulator over the printed digits of n recovers n
(shifted past any prior accumulator value). -/
theorem natDigitsAux_val (fuel : Nat) :
    ∀ n, n < fuel → ∀ acc,
      (natDigitsAux fuel n).foldl (fun a c => a * 10 + (c.toNat - 48)) acc =
        acc * 10 ^ (natDigitsAux fuel n).length + n := by
  induction fuel with
  | zero => intro n hn; omega
  | succ f ih =>
      intro n _ acc
      unfold natDigitsAux
      by_cases h10 : n < 10
      · rw [if_pos h10]
        simp [digitCh_toNat n h10]
      · rw [if_neg h10]
        rw [List.foldl_append]
        rw [ih (n / 10) (by omega) acc]
        simp only [List.foldl_cons, List.foldl_nil, List.length_append,
          List.length_singleton, digitCh_toNat (n % 10) (by omega)]
        rw [pow_succ]
        have hsplit : (acc * 10 ^ (natDigitsAux f (n / 10)).length + n / 10) * 10 +
            (48 + n % 10 - 48) =
            acc * (10 ^ (natDigitsAux f (n / 10)).length * 10) +
              (10 * (n / 10) + n % 10) := by ring_nf; omega
        rw [hsplit]
        omega

/-- The printed digits of a natural number are never empty. -/
theorem natDigits_ne_nil (n : Nat) : natDigits n ≠ [] := by
  unfold natDigits natDigitsAux
  by_cases h10 : n < 10
  · rw [if_pos h10]; simp
  · rw [if_neg h10]; simp

/-- A digit character is not a quote. -/
theorem isDigitCh_ne_quote (c : Char) (h : isDigitCh c = true) : c ≠ '"' := by
  intro hc; rw [hc] at h; simp [isDigitCh] at h

/-- A digit character is not a minus sign. -/
theorem isDigitCh_ne_minus (c : Char) (h : isDigitCh c = true) : c ≠ '-' := by
  intro hc; rw [hc] at h; simp [isDigitCh] at h

/-- The digit-run parser consumes exactly a digit prefix, accumulating its
value, and stops at the first non-digit. -/
theorem parseNatAux_run (ds : List Char) (hds : ∀ c ∈ ds, isDigitCh c = true)
    (rest : List Char) (hrest : ∀ c, rest.head? = some c → isDigitCh c = false) :
    ∀ acc, parseNatAux (ds ++ rest) acc =
      (ds.foldl (fun a c => a * 10 + (c.toNat - 48)) acc, rest) := by
  induction ds with
  | nil =>
      intro acc
      cases rest with
      | nil => rfl
      | cons r rs =>
          simp only [List.nil_append, List.foldl_nil]
          rw [parseNatAux, hrest r rfl]
          simp
  | cons d ds ih =>
      intro acc
      simp only [List.cons_append, List.foldl_cons]
      rw [parseNatAux, if_pos (hds d (by simp))]
      exact ih (fun c hc => hds c (by simp [hc])) (acc * 10 + (d.toNat - 48))

/-- Parsing the printed digits of a natural number yields that number. -/
theorem parseNat_natDigits (n : Nat) (rest : List Char)
    (hrest : ∀ c, rest.head? = some c → isDigitCh c = false) :
    parseNatAux (natDigits n ++ rest) 0 = (n, rest) := by
  rw [parseNatAux_run (natDigits n) (natDigitsAux_digits (n + 1) n (by omega))
    rest hrest 0]
  rw [show natDigits n = natDigitsAux (n + 1) n from rfl,
    natDigitsAux_val (n + 1) n (by omega) 0]
  simp

/-- Parsing the printed form of an int64 yields that integer. -/
theorem parseIntLit_intDigits (i : Int) (rest : List Char)
    (hrest : ∀ c, rest.head? = some c → isDigitCh c = false) :
    parseIntLit (intDigits i ++ rest) = some (i, rest) := by
  unfold intDigits
  by_cases hneg : i < 0
  · rw [if_pos hneg]
    obtain ⟨d, ds, hd⟩ := List.exists_cons_of_ne_nil (natDigits_ne_nil i.natAbs)
    have hdig : isDigitCh d = true := by
      exact natDigitsAux_digits (i.natAbs + 1) i.natAbs (by omega) d
        (by rw [show natDigitsAux (i.natAbs + 1) i.natAbs = natDigits i.natAbs
          from rfl, hd]; simp)
    simp only [List.cons_append, parseIntLit, if_pos rfl]
    rw [hd]
    simp only [List.cons_append]
    rw [if_pos hdig]
    rw [show d :: (ds ++ rest) = (d :: ds) ++ rest from rfl, ← hd]
    rw [parseNat_natDigits i.natAbs rest hrest]
    have h2 : -((i.natAbs : Nat) : Int) = i := by omega
    rw [h2]
    simp
  · rw [if_neg hneg]
    obtain ⟨d, ds, hd⟩ := List.exists_cons_of_ne_nil (natDigits_ne_nil i.toNat)
    have hdig : isDigitCh d = true := by
      exact natDigitsAux_digits (i.toNat + 1) i.toNat (by omega) d
        (by rw [show natDigitsAux (i.toNat + 1) i.toNat = natDigits i.toNat
          from rfl, hd]; simp)
    rw [hd]
    simp only [List.cons_append, parseIntLit]
    rw [if_neg (isDigitCh_ne_minus d hdig), if_pos hdig]
    rw [show d :: (ds ++ rest) = (d :: ds) ++ rest from rfl, ← hd]
    rw [parseNat_natDigits i.toNat rest hrest]
    have h2 : ((i.toNat : Nat) : Int) = i := by omega
    rw [h2]

/-- The member text of the marshalled metadata object, between the braces. -/
def memsText (m : Meta) : List Char :=
  keyColon "filename" ++ encStr m.filename ++ [','] ++
    keyColon "size" ++ intDigits m.size ++ [','] ++
    keyColon "time" ++ intDigits m.time ++ [','] ++
    keyColon "url" ++ encStr m.url

/-- The marshalled object is the member text between the braces. -/
theorem marshalMeta_eq (m : Meta) :
    marshalMeta m = openBrace :: (memsText m ++ [closeBrace]) := rfl

/-- Parsing a value that is an encoded plain string. -/
theorem parseValue_str (s : String) (hs : ∀ c ∈ s.data, plainChar c)
    (rest : List Char) : parseValue (encStr s ++ rest) = some (.jstr s, rest) := by
  rw [encStr_append s hs rest, parseValue.eq_def]
  simp only [if_pos rfl]
  rw [parseStringLit_plain s hs rest]
  rfl

/-- The printed form of an integer starts with a character other than a
quote. -/
theorem intDigits_shape (i : Int) :
    ∃ d ds, intDigits i = d :: ds ∧ d ≠ '"' := by
  unfold intDigits
  by_cases hneg : i < 0
  · rw [if_pos hneg]
    exact ⟨'-', natDigits i.natAbs, rfl, by decide⟩
  · rw [if_neg hneg]
    obtain ⟨d, ds, hd⟩ := List.exists_cons_of_ne_nil (natDigits_ne_nil i.toNat)
    refine ⟨d, ds, hd, isDigitCh_ne_quote d ?_⟩
    exact natDigitsAux_digits (i.toNat + 1) i.toNat (by omega) d
      (by rw [show natDigitsAux (i.toNat + 1) i.toNat = natDigits i.toNat
        from rfl, hd]; simp)

/-- Parsing a value that is a printed integer. -/
theorem parseValue_int (i : Int) (rest : List Char)
    (hrest : ∀ c, rest.head? = some c → isDigitCh c = false) :
    parseValue (intDigits i ++ rest) = some (.jnum i, rest) := by
  obtain ⟨d, ds, hd, hdq⟩ := intDigits_shape i
  rw [hd]
  rw [List.cons_append, parseValue.eq_def]
  simp only [if_neg hdq]
  rw [show d :: (ds ++ rest) = (d :: ds) ++ rest from rfl, ← hd]
  rw [parseIntLit_intDigits i rest hrest]
  rfl

/-- One member whose key is plain and whose value parse is known, followed by
a comma. -/
theorem parseMemberStep_more (k : String) (hk : ∀ c ∈ k.data, plainChar c)
    (v : JVal) (body rest : List Char)
    (hval : parseValue body = some (v, ',' :: rest)) :
    parseMemberStep ('"' :: (k.data ++ '"' :: ':' :: body)) =
      some ((k, v), .more rest) := by
  unfold parseMemberStep
  rw [parseStringLit_plain k hk]
  simp [hval]

/-- One member whose key is plain and whose value parse is known, followed by
the closing brace. -/
theorem parseMemberStep_done (k : String) (hk : ∀ c ∈ k.data, plainChar c)
    (v : JVal) (body rest : List Char)
    (hval : parseValue body = some (v, closeBrace :: rest)) :
    parseMemberStep ('"' :: (k.data ++ '"' :: ':' :: body)) =
      some ((k, v), .done rest) := by
  unfold parseMemberStep
  rw [parseStringLit_plain k hk]
  simp [hval]
  decide

/-- A known continuing member step unfolds the member loop once. -/
theorem parseMembers_more (f : Nat) (cs rest : List Char) (k : String)
    (v : JVal) (h : parseMemberStep cs = some ((k, v), .more rest)) :
    parseMembers (f + 1) cs =
      (parseMembers f rest).bind fun p => some ((k, v) :: p.1, p.2) := by
  rw [parseMembers, h]

/-- A known final member step closes the member loop. -/
theorem parseMembers_done (f : Nat) (cs rest : List Char) (k : String)
    (v : JVal) (h : parseMemberStep cs = some ((k, v), .done rest)) :
    parseMembers (f + 1) cs = some ([(k, v)], rest) := by
  rw [parseMembers, h]

/-- One string-valued member followed by a comma. -/
theorem parseMembers_step_str (f : Nat) (k v : String)
    (hk : ∀ c ∈ k.data, plainChar c) (hv : ∀ c ∈ v.data, plainChar c)
    (rest : List Char) :
    parseMembers (f + 1) (keyColon k ++ (encStr v ++ (',' :: rest))) =
      (parseMembers f rest).bind fun p => some ((k, JVal.jstr v) :: p.1, p.2) := by
  rw [keyColon_append]
  exact parseMembers_more f _ rest k _
    (parseMemberStep_more k hk _ _ rest (parseValue_str v hv (',' :: rest)))

/-- One integer-valued member followed by a comma. -/
theorem parseMembers_step_int (f : Nat) (k : String) (i : Int)
    (hk : ∀ c ∈ k.data, plainChar c) (rest : List Char) :
    parseMembers (f + 1) (keyColon k ++ (intDigits i ++ (',' :: rest))) =
      (parseMembers f rest).bind fun p => some ((k, JVal.jnum i) :: p.1, p.2) := by
  rw [keyColon_append]
  exact parseMembers_more f _ rest k _
    (parseMemberStep_more k hk _ _ rest
      (parseValue_int i (',' :: rest) (by intro c hc; cases hc; decide)))

/-- The final member, a string value, followed by the closing brace. -/
theorem parseMembers_last_str (f : Nat) (k v : String)
    (hk : ∀ c ∈ k.data, plainChar c) (hv : ∀ c ∈ v.data, plainChar c) :
    parseMembers (f + 1) (keyColon k ++ (encStr v ++ [closeBrace])) =
      some ([(k, JVal.jstr v)], []) := by
  rw [keyColon_append]
  exact parseMembers_done f _ [] k _
    (parseMemberStep_done k hk _ _ []
      (by rw [show [closeBrace] = closeBrace :: ([] : List Char) from rfl] at *
          exact parseValue_str v hv (closeBrace :: [])))

/-- Parsing the members of a marshalled metadata record yields its four
bindings in order with nothing left over. -/
theorem parseMembers_marshal (m : Meta)
    (hfn : ∀ c ∈ m.filename.data, plainChar c)
    (hurl : ∀ c ∈ m.url.data, plainChar c) (f : Nat) :
    parseMembers (f + 4) (memsText m ++ [closeBrace]) =
      some ([("filename", .jstr m.filename), ("size", .jnum m.size),
             ("time", .jnum m.time), ("url", .jstr m.url)], []) := by
  have hshape : memsText m ++ [closeBrace] =
      keyColon "filename" ++ (encStr m.filename ++ (',' ::
        (keyColon "size" ++ (intDigits m.size ++ (',' ::
          (keyColon "time" ++ (intDigits m.time ++ (',' ::
            (keyColon "url" ++ (encStr m.url ++ [closeBrace])))))))))) := by
    simp [memsText, List.append_assoc]
  rw [hshape]
  rw [show f + 4 = f + 3 + 1 from rfl,
    parseMembers_step_str (f + 3) "filename" m.filename (by decide) hfn]
  rw [show f + 3 = f + 2 + 1 from rfl,
    parseMembers_step_int (f + 2) "size" m.size (by decide)]
  rw [show f + 2 = f + 1 + 1 from rfl,
    parseMembers_step_int (f + 1) "time" m.time (by decide)]
  rw [parseMembers_last_str f "url" m.url (by decide) hurl]
  rfl

/-- Parsing the whole marshalled metadata document. -/
theorem parseJsonObj_marshal (m : Meta)
    (hfn : ∀ c ∈ m.filename.data, plainChar c)
    (hurl : ∀ c ∈ m.url.data, plainChar c) :
    parseJsonObj (marshalMeta m) =
      some [("filename", .jstr m.filename), ("size", .jnum m.size),
            ("time", .jnum m.time), ("url", .jstr m.url)] := by
  rw [marshalMeta_eq, parseJsonObj.eq_def]
  simp only [if_pos rfl]
  have hne : (memsText m ++ [closeBrace]) ≠ [closeBrace] := by
    have hsh : memsText m ++ [closeBrace] =
        '"' :: ("filename".data ++ '"' :: ':' ::
          (encStr m.filename ++ [','] ++ keyColon "size" ++ intDigits m.size ++
            [','] ++ keyColon "time" ++ intDigits m.time ++ [','] ++
            keyColon "url" ++ encStr m.url ++ [closeBrace])) := by
      simp [memsText, keyColon, List.append_assoc]
    rw [hsh]
    intro h
    injection h with h1 _
    exact absurd h1 (by decide)
  rw [if_neg hne]
  obtain ⟨f, hf⟩ : ∃ f, (memsText m ++ [closeBrace]).length = f + 4 := by
    refine ⟨(memsText m ++ [closeBrace]).length - 4, ?_⟩
    have : 11 ≤ (memsText m).length := by
      simp [memsText, keyColon]
    simp only [List.length_append, List.length_singleton]
    omega
  rw [hf, parseMembers_marshal m hfn hurl f]
  simp

/-- Unmarshalling what the commit path marshalled restores every field. -/
theorem parseMeta_marshal (m : Meta)
    (hfn : ∀ c ∈ m.filename.data, plainChar c)
    (hurl : ∀ c ∈ m.url.data, plainChar c) :
    parseMeta (marshalMeta m) = some m := by
  unfold parseMeta
  rw [parseJsonObj_marshal m hfn hurl]
  rfl

/-- C8: writing a metadata record via the commit path marshal and reading it
back via the ServeFile unmarshal yields the identical four field values, for
every record whose string fields contain only characters JSON escaping leaves
unchanged. -/
theorem meta_roundtrip (m : Meta)
    (hfn : ∀ c ∈ m.filename.data, plainChar c)
    (hurl : ∀ c ∈ m.url.data, plainChar c) :
    parseMeta (marshalMeta m) = some m ∧
    ∀ fs : EntryFS, fs.meta = some m → readMetaFromEntry fs = some m := by
  have h := parseMeta_marshal m hfn hurl
  refine ⟨h, fun fs hfs => ?_⟩
  unfold readMetaFromEntry metaFileBytes
  rw [hfs]
  simpa using h

/-- Witness for meta_roundtrip at the concrete record of the specification
test property. -/
theorem meta_roundtrip_witness :
    parseMeta (marshalMeta ⟨"a.txt", 1234, "https://x/a.txt", 1000⟩) =
      some ⟨"a.txt", 1234, "https://x/a.txt", 1000⟩ ∧
    readMetaFromEntry ⟨none, true, some [], some ⟨"a.txt", 1234,
      "https://x/a.txt", 1000⟩⟩ = some ⟨"a.txt", 1234, "https://x/a.txt", 1000⟩ := by
  have h := meta_roundtrip ⟨"a.txt", 1234, "https://x/a.txt", 1000⟩ (by decide)
    (by decide)
  exact ⟨h.1, h.2 ⟨none, true, some [], some ⟨"a.txt", 1234,
    "https://x/a.txt", 1000⟩⟩ rfl⟩

/-! Coalescing engine: DownloadAndWait (main.go:241-273) under concurrent
callers.  The engine mutex makes each locked section atomic, so the
interleaving semantics takes one labelled step per critical section, plus the
unlocked download call and the channel receive.  Keys are the hash strings;
per-key maps are total functions with the Go zero values as defaults.  A
fetch outcome of none models a nil error, some e the error e.  A buffered
channel of capacity one is a single slot; the send in unsafeNotifyWaiters
fills the slot, and the fact that this send never blocks is proved as the
invariant that the slot is empty whenever the send happens. -/

/-- Outcome of a fetch: none models a nil error. -/
abbrev Outcome := Option String

/-- Shared engine state: whether meta.json exists for each key (what the
fast-path stat of main.go:248 sees), the workers and waiters maps
(main.go:56-57), and the channel slots. -/
structure EngineState where
  cached : String → Bool
  workers : String → Bool
  waiters : String → List Nat
  chans : Nat → Option Outcome
  nextChan : Nat

/-- unsafeAddWaiter (main.go:129-136): make a fresh buffered channel of
capacity one (empty slot) and append it to the waiter list of the hash.
(Creating the empty list for a missing key is a no-op on a total map.) -/
def unsafeAddWaiter (e : EngineState) (hash : String) : EngineState × Nat :=
  let ch := e.nextChan
  ({ e with
      waiters := fun h => if h = hash then e.waiters h ++ [ch] else e.waiters h,
      chans := fun c => if c = ch then none else e.chans c,
      nextChan := ch + 1 }, ch)

/-- Non-blocking send on a one-slot channel: fill the buffer. -/
def sendChan (e : EngineState) (ch : Nat) (o : Outcome) : EngineState :=
  { e with chans := fun c => if c = ch then some o else e.chans c }

/-- The loop of unsafeNotifyWaiters (main.go:139-141): send the outcome on
each channel in list order, recording the sends in execution order. -/
def notifyLoop (o : Outcome) : EngineState → List Nat →
    EngineState × List (Nat × Outcome)
  | e, [] => (e, [])
  | e, ch :: rest =>
      let (e3, tr) := notifyLoop o (sendChan e ch o) rest
      (e3, (ch, o) :: tr)

/-- unsafeNotifyWaiters (main.go:138-143): send the error to every waiter of
the hash in the order they were appended, then delete the waiter list. -/
def unsafeNotifyWaiters (e : EngineState) (hash : String) (o : Outcome) :
    EngineState :=
  let e2 := (notifyLoop o e (e.waiters hash)).1
  { e2 with waiters := fun h => if h = hash then [] else e2.waiters h }

/-- Control point of one DownloadAndWait caller. -/
inductive TaskPC
| ready
| fetching
| fetched (o : Outcome)
| waiting (ch : Nat)
| done (o : Outcome)
deriving DecidableEq, Repr

/-- One caller: the key it requests and its control point. -/
structure Task where
  key : String
  pc : TaskPC
deriving DecidableEq, Repr

/-- The engine together with the calling tasks. -/
structure Sys where
  eng : EngineState
  tasks : List Task

/-- The first critical section of DownloadAndWait (main.go:246-263): return
at once when meta.json exists; join the waiters when a worker is already
marked for the hash; otherwise mark the hash in-flight and start the
download. -/
def enterStep (e : EngineState) (k : String) : EngineState × TaskPC :=
  if e.cached k then (e, .done none)
  else if e.workers k then
    let (e2, ch) := unsafeAddWaiter e k
    (e2, .waiting ch)
  else
    ({ e with workers := fun h => if h = k then true else e.workers h },
      .fetching)

/-- Scheduler labels: run a task's first critical section, let a task's
download call return with an outcome, run a task's notify section
(main.go:268-270), or complete a parked task's channel receive. -/
inductive Label
| enter (i : Nat)
| finishFetch (i : Nat) (o : Outcome)
| notify (i : Nat)
| recv (i : Nat)

/-- One labelled step of the system; none when the label is not enabled.
On a successful download meta.json now exists for the key; on a failed one
the deferred cleanup removed the entry directory again, so the key stays
uncached (download, main.go:180-228). -/
def sysStep (s : Sys) (l : Label) : Option Sys :=
  match l with
  | .enter i =>
      match s.tasks[i]? with
      | some t =>
          match t.pc with
          | .ready =>
              let p := enterStep s.eng t.key
              some ⟨p.1, s.tasks.set i ⟨t.key, p.2⟩⟩
          | _ => none
      | none => none
  | .finishFetch i o =>
      match s.tasks[i]? with
      | some t =>
          match t.pc with
          | .fetching =>
              let e2 := if o.isNone then
                  { s.eng with cached := fun h =>
                      if h = t.key then true else s.eng.cached h }
                else s.eng
              some ⟨e2, s.tasks.set i ⟨t.key, .fetched o⟩⟩
          | _ => none
      | none => none
  | .notify i =>
      match s.tasks[i]? with
      | some t =>
          match t.pc with
          | .fetched o =>
              some ⟨unsafeNotifyWaiters s.eng t.key o,
                s.tasks.set i ⟨t.key, .done o⟩⟩
          | _ => none
      | none => none
  | .recv i =>
      match s.tasks[i]? with
      | some t =>
          match t.pc with
          | .waiting ch =>
              match s.eng.chans ch with
              | some o =>
                  some ⟨{ s.eng with chans := fun c =>
                      if c = ch then none else s.eng.chans c },
                    s.tasks.set i ⟨t.key, .done o⟩⟩
              | none => none
          | _ => none
      | none => none

/-- Run a schedule of labels from a system state. -/
def sysRun (s : Sys) : List Label → Option Sys
  | [] => some s
  | l :: ls => (sysStep s l).bind fun s2 => sysRun s2 ls

/-- Initial system: n concurrent DownloadAndWait callers for the same key,
which has no cache entry and no in-flight worker yet. -/
def initSys (k : String) (n : Nat) : Sys :=
  ⟨⟨fun _ => false, fun _ => false, fun _ => [], fun _ => none, 0⟩,
   List.replicate n ⟨k, .ready⟩⟩

/-- Number of completed Fetcher invocations in a schedule. -/
def fetchCount : List Label → Nat
  | [] => 0
  | .finishFetch _ _ :: ls => fetchCount ls + 1
  | _ :: ls => fetchCount ls

/-- Running a concatenated schedule runs the pieces in sequence. -/
theorem sysRun_append (s : Sys) (a b : List Label) :
    sysRun s (a ++ b) = (sysRun s a).bind fun s2 => sysRun s2 b := by
  induction a generalizing s with
  | nil => simp [sysRun]
  | cons l ls ih =>
      simp only [List.cons_append, sysRun]
      cases sysStep s l with
      | none => rfl
      | some s2 => simp [ih s2]

/-- No task is currently running a fetch. -/
def noFetcher (s : Sys) : Bool :=
  s.tasks.all fun t => match t.pc with
    | .fetching => false
    | .fetched _ => false
    | _ => true

/-- Every parked task waits on an empty channel slot. -/
def parkedChansEmpty (s : Sys) : Bool :=
  s.tasks.all fun t => match t.pc with
    | .waiting ch => s.eng.chans ch == none
    | _ => true

/-- All tasks request the given key. -/
def allOnKey (s : Sys) (k : String) : Bool :=
  s.tasks.all fun t => t.key == k

/-- The state of a key after a failed fetch completed and was notified: the
key is still uncached, its worker flag is stuck at true (DownloadAndWait
never clears the workers map), no task is fetching, and every parked task
waits on an empty slot that no remaining producer will ever fill. -/
def PoisonedState (s : Sys) (k : String) : Prop :=
  s.eng.cached k = false ∧ s.eng.workers k = true ∧ noFetcher s = true ∧
    parkedChansEmpty s = true ∧ allOnKey s k = true

instance (s : Sys) (k : String) : Decidable (PoisonedState s k) := by
  unfold PoisonedState; infer_instance

/-- A poisoned key stays poisoned across any enabled step, and every parked
task stays parked on its channel. -/
theorem poisoned_step (k : String) (s s' : Sys) (l : Label)
    (h : PoisonedState s k) (hs : sysStep s l = some s') :
    PoisonedState s' k ∧
      ∀ (i : Nat) (k2 : String) (ch : Nat),
        s.tasks[i]? = some ⟨k2, .waiting ch⟩ →
        s'.tasks[i]? = some ⟨k2, .waiting ch⟩ := by
  obtain ⟨hc, hw, hnf, hpe, hak⟩ := h
  cases l with
  | enter i =>
      simp only [sysStep] at hs
      cases hti : s.tasks[i]? with
      | none => rw [hti] at hs; cases hs
      | some t =>
          rw [hti] at hs
          obtain ⟨tk, tpc⟩ := t
          have htk : tk = k := by
            have := (List.all_eq_true.mp hak) _ (List.getElem?_mem hti)
            simpa using this
          cases tpc with
          | ready =>
              simp only [enterStep, htk, hc, hw, Bool.false_eq_true,
                if_false, if_true, unsafeAddWaiter] at hs
              cases hs
              constructor
              · refine ⟨hc, hw, ?_, ?_, ?_⟩
                · rw [noFetcher, List.all_eq_true]
                  intro t' ht'
                  rcases List.mem_or_eq_of_mem_set ht' with h' | rfl
                  · exact (List.all_eq_true.mp hnf) _ h'
                  · rfl
                · rw [parkedChansEmpty, List.all_eq_true]
                  intro t' ht'
                  rcases List.mem_or_eq_of_mem_set ht' with h' | rfl
                  · have hold := (List.all_eq_true.mp hpe) _ h'
                    cases hpc : t'.pc with
                    | waiting ch' =>
                        rw [hpc] at hold
                        show ((if ch' = s.eng.nextChan then none
                          else s.eng.chans ch') == none) = true
                        by_cases hcc : ch' = s.eng.nextChan
                        · rw [if_pos hcc]; rfl
                        · rw [if_neg hcc]; exact hold
                    | ready => rfl
                    | fetching => rfl
                    | fetched o => rfl
                    | done o => rfl
                  · show ((if s.eng.nextChan = s.eng.nextChan then none
                      else s.eng.chans s.eng.nextChan) == none) = true
                    rw [if_pos rfl]; rfl
                · rw [allOnKey, List.all_eq_true]
                  intro t' ht'
                  rcases List.mem_or_eq_of_mem_set ht' with h' | rfl
                  · exact (List.all_eq_true.mp hak) _ h'
                  · simp
              · intro j k2 ch hj
                have hij : i ≠ j := by
                  intro e
                  subst e
                  rw [hti] at hj
                  simp at hj
                rw [List.getElem?_set_ne hij]
                exact hj
          | fetching =>
              have := (List.all_eq_true.mp hnf) _ (List.getElem?_mem hti)
              simp [noFetcher] at this
          | fetched o =>
              have := (List.all_eq_true.mp hnf) _ (List.getElem?_mem hti)
              simp [noFetcher] at this
          | waiting ch => cases hs
          | done o => cases hs
  | finishFetch i o =>
      simp only [sysStep] at hs
      cases hti : s.tasks[i]? with
      | none => rw [hti] at hs; cases hs
      | some t =>
          rw [hti] at hs
          obtain ⟨tk, tpc⟩ := t
          cases tpc with
          | fetching =>
              have := (List.all_eq_true.mp hnf) _ (List.getElem?_mem hti)
              simp [noFetcher] at this
          | ready => cases hs
          | fetched o2 => cases hs
          | waiting ch => cases hs
          | done o2 => cases hs
  | notify i =>
      simp only [sysStep] at hs
      cases hti : s.tasks[i]? with
      | none => rw [hti] at hs; cases hs
      | some t =>
          rw [hti] at hs
          obtain ⟨tk, tpc⟩ := t
          cases tpc with
          | fetched o =>
              have := (List.all_eq_true.mp hnf) _ (List.getElem?_mem hti)
              simp [noFetcher] at this
          | ready => cases hs
          | fetching => cases hs
          | waiting ch => cases hs
          | done o2 => cases hs
  | recv i =>
      simp only [sysStep] at hs
      cases hti : s.tasks[i]? with
      | none => rw [hti] at hs; cases hs
      | some t =>
          rw [hti] at hs
          obtain ⟨tk, tpc⟩ := t
          cases tpc with
          | waiting ch =>
              have hch : s.eng.chans ch = none := by
                have := (List.all_eq_true.mp hpe) _ (List.getElem?_mem hti)
                simpa [parkedChansEmpty] using this
              simp [hch] at hs
          | ready => cases hs
          | fetching => cases hs
          | fetched o => cases hs
          | done o => cases hs

/-- A poisoned key stays poisoned over any whole schedule, and parked tasks
never leave their channel: no waiter for a poisoned key ever completes. -/
theorem poisoned_run (k : String) (s s' : Sys) (tr : List Label)
    (h : PoisonedState s k) (hr : sysRun s tr = some s') :
    PoisonedState s' k ∧
      ∀ (i : Nat) (k2 : String) (ch : Nat),
        s.tasks[i]? = some ⟨k2, .waiting ch⟩ →
        s'.tasks[i]? = some ⟨k2, .waiting ch⟩ := by
  induction tr generalizing s with
  | nil =>
      cases hr
      exact ⟨h, fun i k2 ch hj => hj⟩
  | cons l ls ih =>
      simp only [sysRun] at hr
      cases hstep : sysStep s l with
      | none => rw [hstep] at hr; cases hr
      | some s2 =>
          rw [hstep] at hr
          obtain ⟨h2, hkeep⟩ := poisoned_step k s s2 l h hstep
          obtain ⟨h3, hkeep2⟩ := ih s2 h2 hr
          exact ⟨h3, fun i k2 ch hj => hkeep2 i k2 ch (hkeep i k2 ch hj)⟩

/-- C1 (refuted by the code): after a fetch for a key fails and the waiters
are notified, the workers flag of the key is never cleared, so the next
DownloadAndWait call for the still-uncached key does not start a new fetch:
it registers as a waiter of a fetch that no longer exists and stays parked
forever, under every continuation of the schedule. -/
theorem failed_fetch_poisons_key (e : String) (tr2 : List Label) (s2 : Sys)
    (h : sysRun (initSys "h" 2)
      ([.enter 0, .finishFetch 0 (some e), .notify 0, .enter 1] ++ tr2) =
        some s2) :
    s2.eng.workers "h" = true ∧ s2.eng.cached "h" = false ∧
      noFetcher s2 = true ∧ s2.tasks[1]? = some ⟨"h", .waiting 0⟩ := by
  rw [sysRun_append] at h
  cases hp : sysRun (initSys "h" 2)
      [.enter 0, .finishFetch 0 (some e), .notify 0, .enter 1] with
  | none => rw [hp] at h; cases h
  | some sp =>
      rw [hp] at h
      have h2 : sysRun sp tr2 = some s2 := h
      have hkey : (sysRun (initSys "h" 2)
          [.enter 0, .finishFetch 0 (some e), .notify 0, .enter 1]).map
            (fun s => (s.eng.workers "h", s.eng.cached "h", noFetcher s,
              parkedChansEmpty s, allOnKey s "h", s.tasks[1]?)) =
          some (true, false, true, true, true,
            some ⟨"h", .waiting 0⟩) := rfl
      rw [hp] at hkey
      simp only [Option.map_some', Option.some.injEq, Prod.mk.injEq] at hkey
      obtain ⟨hw, hcd, hnf, hpe, hak, ht1⟩ := hkey
      have hpoison : PoisonedState sp "h" := ⟨hcd, hw, hnf, hpe, hak⟩
      obtain ⟨hps2, hkeep⟩ := poisoned_run "h" sp s2 tr2 hpoison h2
      exact ⟨hps2.2.1, hps2.1, hps2.2.2.1, hkeep 1 "h" 0 ht1⟩

/-- Witness for failed_fetch_poisons_key at the empty continuation: the
second caller is still parked after the failed first fetch. -/
theorem failed_fetch_poisons_key_witness :
    ((sysRun (initSys "h" 2)
      [.enter 0, .finishFetch 0 (some "remote: 404 Not Found"), .notify 0,
       .enter 1]).bind fun s2 => s2.tasks[1]?) =
      some ⟨"h", .waiting 0⟩ := by
  cases hp : sysRun (initSys "h" 2)
      [.enter 0, .finishFetch 0 (some "remote: 404 Not Found"), .notify 0,
       .enter 1] with
  | none =>
      have hsome : (sysRun (initSys "h" 2)
          [.enter 0, .finishFetch 0 (some "remote: 404 Not Found"), .notify 0,
           .enter 1]).isSome = true := by decide
      rw [hp] at hsome
      cases hsome
  | some s2 =>
      exact (failed_fetch_poisons_key "remote: 404 Not Found" [] s2
        (by rw [List.append_nil]; exact hp)).2.2.2

/-- The index of a successful list access is in bounds. -/
theorem idx_lt {α : Type} (l : List α) (i : Nat) (a : α) (h : l[i]? = some a) :
    i < l.length :=
  (List.getElem?_eq_some_iff.mp h).1

/-- The notify loop changes no engine field besides the channel slots. -/
theorem notifyLoop_fields (o : Outcome) (ws : List Nat) (e : EngineState) :
    (notifyLoop o e ws).1.cached = e.cached ∧
    (notifyLoop o e ws).1.workers = e.workers ∧
    (notifyLoop o e ws).1.waiters = e.waiters ∧
    (notifyLoop o e ws).1.nextChan = e.nextChan := by
  induction ws generalizing e with
  | nil => exact ⟨rfl, rfl, rfl, rfl⟩
  | cons ch rest ih => simpa [notifyLoop, sendChan] using ih (sendChan e ch o)

/-- Channel slots after the notify loop: every channel of the list holds the
outcome, all others are untouched. -/
theorem notifyLoop_chans (o : Outcome) (ws : List Nat) (e : EngineState)
    (c : Nat) :
    (notifyLoop o e ws).1.chans c = if c ∈ ws then some o else e.chans c := by
  induction ws generalizing e with
  | nil => simp [notifyLoop]
  | cons ch rest ih =>
      show (notifyLoop o (sendChan e ch o) rest).1.chans c = _
      rw [ih (sendChan e ch o)]
      by_cases hc : c ∈ rest
      · simp [hc]
      · by_cases hc2 : c = ch
        · simp [hc, hc2, sendChan]
        · simp [hc, hc2, sendChan]

/-- The sends of the notify loop are one per listed channel, in list order,
each carrying the one outcome. -/
theorem notifyLoop_trace (o : Outcome) (ws : List Nat) (e : EngineState) :
    (notifyLoop o e ws).2 = ws.map fun ch => (ch, o) := by
  induction ws generalizing e with
  | nil => rfl
  | cons ch rest ih =>
      show (ch, o) :: (notifyLoop o (sendChan e ch o) rest).2 = _
      rw [ih (sendChan e ch o)]
      rfl

/-- Channel slots after unsafeNotifyWaiters. -/
theorem unsafeNotifyWaiters_chans (e : EngineState) (k : String) (o : Outcome)
    (c : Nat) :
    (unsafeNotifyWaiters e k o).chans c =
      if c ∈ e.waiters k then some o else e.chans c := by
  show (notifyLoop o e (e.waiters k)).1.chans c = _
  exact notifyLoop_chans o (e.waiters k) e c

/-- unsafeNotifyWaiters deletes the waiter list of the hash. -/
theorem unsafeNotifyWaiters_waiters (e : EngineState) (k : String)
    (o : Outcome) : (unsafeNotifyWaiters e k o).waiters k = [] := by
  show (fun h => if h = k then [] else (notifyLoop o e (e.waiters k)).1.waiters h) k = []
  simp

/-- unsafeNotifyWaiters leaves cached, workers and nextChan unchanged. -/
theorem unsafeNotifyWaiters_fields (e : EngineState) (k : String)
    (o : Outcome) :
    (unsafeNotifyWaiters e k o).cached = e.cached ∧
    (unsafeNotifyWaiters e k o).workers = e.workers ∧
    (unsafeNotifyWaiters e k o).nextChan = e.nextChan := by
  obtain ⟨h1, h2, _, h4⟩ := notifyLoop_fields o (e.waiters k) e
  exact ⟨h1, h2, h4⟩

/-- A task that is neither the active fetcher nor finished: it has not yet
run its first critical section, or it is parked on a channel that is
registered in the waiter list of the key. -/
def PassiveTask (s : Sys) (k : String) (t : Task) : Prop :=
  t.pc = .ready ∨ ∃ ch, t.pc = .waiting ch ∧ ch ∈ s.eng.waiters k

/-- All channel slots of the system are empty. -/
def AllChansNone (s : Sys) : Prop := ∀ c, s.eng.chans c = none

/-- Structural facts holding in every reachable state of a run in which all
tasks request the same key. -/
structure BaseInv (k : String) (n : Nat) (s : Sys) : Prop where
  tlen : s.tasks.length = n
  keys : ∀ (j : Nat) (t : Task), s.tasks[j]? = some t → t.key = k
  wbound : ∀ c ∈ s.eng.waiters k, c < s.eng.nextChan
  wnodup : (s.eng.waiters k).Nodup
  tbound : ∀ (j : Nat) (t : Task) (ch : Nat), s.tasks[j]? = some t →
    t.pc = .waiting ch → ch < s.eng.nextChan
  tdistinct : ∀ (i j : Nat) (ti tj : Task) (chi chj : Nat), i ≠ j →
    s.tasks[i]? = some ti → s.tasks[j]? = some tj → ti.pc = .waiting chi →
    tj.pc = .waiting chj → chi ≠ chj

/-- Phase of a single-key run after fc completed fetch invocations: nothing
has started; one download is in flight; the download finished with one
outcome but the waiters are not yet notified; or the single outcome has been
delivered to the accumulated waiters. -/
def PhaseInv (k : String) (s : Sys) (fc : Nat) : Prop :=
  (fc = 0 ∧ s.eng.workers k = false ∧ s.eng.cached k = false ∧
    s.eng.waiters k = [] ∧ AllChansNone s ∧
    ∀ (j : Nat) (t : Task), s.tasks[j]? = some t → t.pc = .ready)
  ∨
  (fc = 0 ∧ s.eng.workers k = true ∧ s.eng.cached k = false ∧
    AllChansNone s ∧
    ∃ (i : Nat) (t : Task), s.tasks[i]? = some t ∧ t.pc = .fetching ∧
      ∀ (j : Nat) (t2 : Task), j ≠ i → s.tasks[j]? = some t2 →
        PassiveTask s k t2)
  ∨
  (fc = 1 ∧ s.eng.workers k = true ∧ AllChansNone s ∧
    ∃ (o : Outcome) (i : Nat) (t : Task), s.tasks[i]? = some t ∧
      t.pc = .fetched o ∧ s.eng.cached k = o.isNone ∧
      ∀ (j : Nat) (t2 : Task), j ≠ i → s.tasks[j]? = some t2 →
        (PassiveTask s k t2 ∨ (o = none ∧ t2.pc = .done none)))
  ∨
  (fc = 1 ∧ s.eng.workers k = true ∧
    ∃ (o : Outcome), s.eng.cached k = o.isNone ∧
      ∀ (j : Nat) (t : Task), s.tasks[j]? = some t →
        (t.pc = .ready ∨ t.pc = .done o ∨
          ∃ ch, t.pc = .waiting ch ∧
            ((ch ∈ s.eng.waiters k ∧ s.eng.chans ch = none) ∨
              s.eng.chans ch = some o)))

/-- Appending a fresh element keeps a list duplicate-free. -/
theorem nodup_app_single {α : Type} (l : List α) (a : α) (h : l.Nodup)
    (ha : a ∉ l) : (l ++ [a]).Nodup := by
  simp only [List.nodup_append, List.nodup_cons, List.not_mem_nil, not_false_iff,
    List.nodup_nil, and_true, true_and, List.disjoint_singleton]
  exact ⟨h, ha⟩

/-- Lookup in a list after an update: the updated index or an untouched one. -/
theorem set_cases {α : Type} (l : List α) (i j : Nat) (a x : α)
    (hlen : i < l.length) (h : (l.set i a)[j]? = some x) :
    (j = i ∧ x = a) ∨ (j ≠ i ∧ l[j]? = some x) := by
  by_cases hij : j = i
  · subst hij
    rw [List.getElem?_set_self hlen] at h
    exact Or.inl ⟨rfl, (Option.some.inj h).symm⟩
  · rw [List.getElem?_set_ne fun e => hij e.symm] at h
    exact Or.inr ⟨hij, h⟩

/-- The first critical section preserves the base and phase invariants. -/
theorem phase_enter (k : String) (n : Nat) (s s' : Sys) (i : Nat) (fc : Nat)
    (hb : BaseInv k n s) (hp : PhaseInv k s fc)
    (hs : sysStep s (.enter i) = some s') :
    BaseInv k n s' ∧ PhaseInv k s' fc := by
  simp only [sysStep] at hs
  cases hti : s.tasks[i]? with
  | none => rw [hti] at hs; cases hs
  | some t =>
      rw [hti] at hs
      obtain ⟨tk, tpc⟩ := t
      have htk : tk = k := hb.keys i _ hti
      rw [htk] at hti hs
      cases tpc with
      | fetching => cases hs
      | fetched o => cases hs
      | waiting ch => cases hs
      | done o => cases hs
      | ready =>
        have hilen : i < s.tasks.length := idx_lt _ _ _ hti
        rcases hp with ⟨hfc, hw, hc, hwl, hcn, hall⟩ |
          ⟨hfc, hw, hc, hcn, i0, t0, ht0, hpc0, hpass⟩ |
          ⟨hfc, hw, hcn, o, i0, t0, ht0, hpc0, hcach, hoth⟩ |
          ⟨hfc, hw, o, hcach, hall⟩
        · -- phase 0: start the download
          simp only [enterStep, hc, hw, Bool.false_eq_true, if_false] at hs
          cases hs
          refine ⟨⟨?_, ?_, hb.wbound, hb.wnodup, ?_, ?_⟩, ?_⟩
          · rw [List.length_set]; exact hb.tlen
          · intro j t hj
            rcases set_cases _ _ _ _ _ hilen hj with ⟨_, rfl⟩ | ⟨_, hold⟩
            · rfl
            · exact hb.keys j t hold
          · intro j t ch hj hpc
            rcases set_cases _ _ _ _ _ hilen hj with ⟨_, rfl⟩ | ⟨_, hold⟩
            · cases hpc
            · exact hb.tbound j t ch hold hpc
          · intro i1 j1 ti tj chi chj hne hti1 htj1 hpci hpcj
            rcases set_cases _ _ _ _ _ hilen hti1 with ⟨_, rfl⟩ | ⟨_, hold1⟩
            · cases hpci
            rcases set_cases _ _ _ _ _ hilen htj1 with ⟨_, rfl⟩ | ⟨_, hold2⟩
            · cases hpcj
            · exact hb.tdistinct i1 j1 ti tj chi chj hne hold1 hold2 hpci hpcj
          · refine Or.inr (Or.inl ⟨hfc, by simp, hc, hcn, i, ⟨k, .fetching⟩,
              List.getElem?_set_self hilen, rfl, ?_⟩)
            intro j t2 hji hj
            rw [List.getElem?_set_ne fun e => hji e.symm] at hj
            exact Or.inl (hall j t2 hj)
        · -- phase 1: join the waiters of the in-flight fetch
          simp only [enterStep, hc, hw, Bool.false_eq_true, if_false, if_true,
            unsafeAddWaiter] at hs
          cases hs
          have hii0 : i ≠ i0 := by
            intro e
            subst e
            rw [hti] at ht0
            cases ht0
            cases hpc0
          refine ⟨⟨?_, ?_, ?_, ?_, ?_, ?_⟩, ?_⟩
          · rw [List.length_set]; exact hb.tlen
          · intro j t hj
            rcases set_cases _ _ _ _ _ hilen hj with ⟨_, rfl⟩ | ⟨_, hold⟩
            · rfl
            · exact hb.keys j t hold
          · intro c hcmem
            simp only [if_pos rfl] at hcmem
            rcases List.mem_append.mp hcmem with hcm | hcm
            · exact Nat.lt_succ_of_lt (hb.wbound c hcm)
            · simp only [List.mem_singleton] at hcm
              rw [hcm]; exact Nat.lt_succ_self _
          · show (if k = k then s.eng.waiters k ++ [s.eng.nextChan]
              else s.eng.waiters k).Nodup
            rw [if_pos rfl]
            exact nodup_app_single _ _ hb.wnodup
              fun hmem => absurd (hb.wbound _ hmem) (by omega)
          · intro j t ch hj hpc
            rcases set_cases _ _ _ _ _ hilen hj with ⟨_, rfl⟩ | ⟨_, hold⟩
            · cases hpc; exact Nat.lt_succ_self _
            · exact Nat.lt_succ_of_lt (hb.tbound j t ch hold hpc)
          · intro i1 j1 ti tj chi chj hne hti1 htj1 hpci hpcj
            rcases set_cases _ _ _ _ _ hilen hti1 with ⟨he1, rfl⟩ | ⟨h1, hold1⟩
            · rcases set_cases _ _ _ _ _ hilen htj1 with ⟨he2, rfl⟩ | ⟨h2, hold2⟩
              · exact absurd (he1.trans he2.symm) hne
              · cases hpci
                have := hb.tbound j1 tj chj hold2 hpcj
                omega
            · rcases set_cases _ _ _ _ _ hilen htj1 with ⟨he2, rfl⟩ | ⟨h2, hold2⟩
              · cases hpcj
                have := hb.tbound i1 ti chi hold1 hpci
                omega
              · exact hb.tdistinct i1 j1 ti tj chi chj hne hold1 hold2 hpci hpcj
          · refine Or.inr (Or.inl ⟨hfc, hw, hc, ?_, i0, t0, ?_, hpc0, ?_⟩)
            · intro c
              show (if c = s.eng.nextChan then none else s.eng.chans c) = none
              by_cases hcc : c = s.eng.nextChan
              · rw [if_pos hcc]
              · rw [if_neg hcc]; exact hcn c
            · rw [List.getElem?_set_ne hii0]; exact ht0
            · intro j t2 hji0 hj
              rcases set_cases _ _ _ _ _ hilen hj with ⟨_, rfl⟩ | ⟨_, hold⟩
              · refine Or.inr ⟨s.eng.nextChan, rfl, ?_⟩
                simp
              · rcases hpass j t2 hji0 hold with hr | ⟨ch, hpc, hmem⟩
                · exact Or.inl hr
                · refine Or.inr ⟨ch, hpc, ?_⟩
                  simp only [if_pos rfl]
                  exact List.mem_append_left _ hmem
        · -- phase 2: the fetch has finished, notify still pending
          have hii0 : i ≠ i0 := by
            intro e
            subst e
            rw [hti] at ht0
            cases ht0
            cases hpc0
          cases o with
          | none =>
              -- the fetch succeeded: meta.json exists, fast path returns
              have hctrue : s.eng.cached k = true := hcach
              simp only [enterStep, hctrue, if_true] at hs
              cases hs
              refine ⟨⟨?_, ?_, hb.wbound, hb.wnodup, ?_, ?_⟩, ?_⟩
              · rw [List.length_set]; exact hb.tlen
              · intro j t hj
                rcases set_cases _ _ _ _ _ hilen hj with ⟨_, rfl⟩ | ⟨_, hold⟩
                · rfl
                · exact hb.keys j t hold
              · intro j t ch hj hpc
                rcases set_cases _ _ _ _ _ hilen hj with ⟨_, rfl⟩ | ⟨_, hold⟩
                · cases hpc
                · exact hb.tbound j t ch hold hpc
              · intro i1 j1 ti tj chi chj hne hti1 htj1 hpci hpcj
                rcases set_cases _ _ _ _ _ hilen hti1 with ⟨_, rfl⟩ | ⟨_, hold1⟩
                · cases hpci
                rcases set_cases _ _ _ _ _ hilen htj1 with ⟨_, rfl⟩ | ⟨_, hold2⟩
                · cases hpcj
                · exact hb.tdistinct i1 j1 ti tj chi chj hne hold1 hold2
                    hpci hpcj
              · refine Or.inr (Or.inr (Or.inl ⟨hfc, hw, hcn, none, i0, t0, ?_,
                  hpc0, hcach, ?_⟩))
                · rw [List.getElem?_set_ne hii0]; exact ht0
                · intro j t2 hji0 hj
                  rcases set_cases _ _ _ _ _ hilen hj with ⟨_, rfl⟩ | ⟨_, hold⟩
                  · exact Or.inr ⟨rfl, rfl⟩
                  · exact hoth j t2 hji0 hold
          | some e =>
              have hcfalse : s.eng.cached k = false := hcach
              simp only [enterStep, hcfalse, hw, Bool.false_eq_true, if_false,
                if_true, unsafeAddWaiter] at hs
              cases hs
              refine ⟨⟨?_, ?_, ?_, ?_, ?_, ?_⟩, ?_⟩
              · rw [List.length_set]; exact hb.tlen
              · intro j t hj
                rcases set_cases _ _ _ _ _ hilen hj with ⟨_, rfl⟩ | ⟨_, hold⟩
                · rfl
                · exact hb.keys j t hold
              · intro c hcmem
                simp only [if_pos rfl] at hcmem
                rcases List.mem_append.mp hcmem with hcm | hcm
                · exact Nat.lt_succ_of_lt (hb.wbound c hcm)
                · simp only [List.mem_singleton] at hcm
                  rw [hcm]; exact Nat.lt_succ_self _
              · show (if k = k then s.eng.waiters k ++ [s.eng.nextChan]
                  else s.eng.waiters k).Nodup
                rw [if_pos rfl]
                exact nodup_app_single _ _ hb.wnodup
                  fun hmem => absurd (hb.wbound _ hmem) (by omega)
              · intro j t ch hj hpc
                rcases set_cases _ _ _ _ _ hilen hj with ⟨_, rfl⟩ | ⟨_, hold⟩
                · cases hpc; exact Nat.lt_succ_self _
                · exact Nat.lt_succ_of_lt (hb.tbound j t ch hold hpc)
              · intro i1 j1 ti tj chi chj hne hti1 htj1 hpci hpcj
                rcases set_cases _ _ _ _ _ hilen hti1 with ⟨he1, rfl⟩ | ⟨h1, hold1⟩
                · rcases set_cases _ _ _ _ _ hilen htj1 with ⟨he2, rfl⟩ | ⟨h2, hold2⟩
                  · exact absurd (he1.trans he2.symm) hne
                  · cases hpci
                    have := hb.tbound j1 tj chj hold2 hpcj
                    omega
                · rcases set_cases _ _ _ _ _ hilen htj1 with ⟨he2, rfl⟩ | ⟨h2, hold2⟩
                  · cases hpcj
                    have := hb.tbound i1 ti chi hold1 hpci
                    omega
                  · exact hb.tdistinct i1 j1 ti tj chi chj hne hold1 hold2
                      hpci hpcj
              · refine Or.inr (Or.inr (Or.inl ⟨hfc, hw, ?_, some e, i0, t0, ?_,
                  hpc0, hcach, ?_⟩))
                · intro c
                  show (if c = s.eng.nextChan then none else s.eng.chans c) = none
                  by_cases hcc : c = s.eng.nextChan
                  · rw [if_pos hcc]
                  · rw [if_neg hcc]; exact hcn c
                · rw [List.getElem?_set_ne hii0]; exact ht0
                · intro j t2 hji0 hj
                  rcases set_cases _ _ _ _ _ hilen hj with ⟨_, rfl⟩ | ⟨_, hold⟩
                  · refine Or.inl (Or.inr ⟨s.eng.nextChan, rfl, ?_⟩)
                    simp
                  · rcases hoth j t2 hji0 hold with hpas | hdn
                    · rcases hpas with hr | ⟨ch, hpc, hmem⟩
                      · exact Or.inl (Or.inl hr)
                      · refine Or.inl (Or.inr ⟨ch, hpc, ?_⟩)
                        simp only [if_pos rfl]
                        exact List.mem_append_left _ hmem
                    · cases hdn.1
        · -- phase 3: the outcome is already delivered
          cases o with
          | none =>
              have hctrue : s.eng.cached k = true := hcach
              simp only [enterStep, hctrue, if_true] at hs
              cases hs
              refine ⟨⟨?_, ?_, hb.wbound, hb.wnodup, ?_, ?_⟩, ?_⟩
              · rw [List.length_set]; exact hb.tlen
              · intro j t hj
                rcases set_cases _ _ _ _ _ hilen hj with ⟨_, rfl⟩ | ⟨_, hold⟩
                · rfl
                · exact hb.keys j t hold
              · intro j t ch hj hpc
                rcases set_cases _ _ _ _ _ hilen hj with ⟨_, rfl⟩ | ⟨_, hold⟩
                · cases hpc
                · exact hb.tbound j t ch hold hpc
              · intro i1 j1 ti tj chi chj hne hti1 htj1 hpci hpcj
                rcases set_cases _ _ _ _ _ hilen hti1 with ⟨_, rfl⟩ | ⟨_, hold1⟩
                · cases hpci
                rcases set_cases _ _ _ _ _ hilen htj1 with ⟨_, rfl⟩ | ⟨_, hold2⟩
                · cases hpcj
                · exact hb.tdistinct i1 j1 ti tj chi chj hne hold1 hold2
                    hpci hpcj
              · refine Or.inr (Or.inr (Or.inr ⟨hfc, hw, none, hcach, ?_⟩))
                intro j t hj
                rcases set_cases _ _ _ _ _ hilen hj with ⟨_, rfl⟩ | ⟨_, hold⟩
                · exact Or.inr (Or.inl rfl)
                · exact hall j t hold
          | some e =>
              have hcfalse : s.eng.cached k = false := hcach
              simp only [enterStep, hcfalse, hw, Bool.false_eq_true, if_false,
                if_true, unsafeAddWaiter] at hs
              cases hs
              refine ⟨⟨?_, ?_, ?_, ?_, ?_, ?_⟩, ?_⟩
              · rw [List.length_set]; exact hb.tlen
              · intro j t hj
                rcases set_cases _ _ _ _ _ hilen hj with ⟨_, rfl⟩ | ⟨_, hold⟩
                · rfl
                · exact hb.keys j t hold
              · intro c hcmem
                simp only [if_pos rfl] at hcmem
                rcases List.mem_append.mp hcmem with hcm | hcm
                · exact Nat.lt_succ_of_lt (hb.wbound c hcm)
                · simp only [List.mem_singleton] at hcm
                  rw [hcm]; exact Nat.lt_succ_self _
              · show (if k = k then s.eng.waiters k ++ [s.eng.nextChan]
                  else s.eng.waiters k).Nodup
                rw [if_pos rfl]
                exact nodup_app_single _ _ hb.wnodup
                  fun hmem => absurd (hb.wbound _ hmem) (by omega)
              · intro j t ch hj hpc
                rcases set_cases _ _ _ _ _ hilen hj with ⟨_, rfl⟩ | ⟨_, hold⟩
                · cases hpc; exact Nat.lt_succ_self _
                · exact Nat.lt_succ_of_lt (hb.tbound j t ch hold hpc)
              · intro i1 j1 ti tj chi chj hne hti1 htj1 hpci hpcj
                rcases set_cases _ _ _ _ _ hilen hti1 with ⟨he1, rfl⟩ | ⟨h1, hold1⟩
                · rcases set_cases _ _ _ _ _ hilen htj1 with ⟨he2, rfl⟩ | ⟨h2, hold2⟩
                  · exact absurd (he1.trans he2.symm) hne
                  · cases hpci
                    have := hb.tbound j1 tj chj hold2 hpcj
                    omega
                · rcases set_cases _ _ _ _ _ hilen htj1 with ⟨he2, rfl⟩ | ⟨h2, hold2⟩
                  · cases hpcj
                    have := hb.tbound i1 ti chi hold1 hpci
                    omega
                  · exact hb.tdistinct i1 j1 ti tj chi chj hne hold1 hold2
                      hpci hpcj
              · refine Or.inr (Or.inr (Or.inr ⟨hfc, hw, some e, hcach, ?_⟩))
                intro j t hj
                rcases set_cases _ _ _ _ _ hilen hj with ⟨_, rfl⟩ | ⟨_, hold⟩
                · refine Or.inr (Or.inr ⟨s.eng.nextChan, rfl, Or.inl ⟨?_, ?_⟩⟩)
                  · simp
                  · simp
                · rcases hall j t hold with hr | hd | ⟨ch, hpc, hrest⟩
                  · exact Or.inl hr
                  · exact Or.inr (Or.inl hd)
                  · have hchlt : ch < s.eng.nextChan :=
                      hb.tbound j t ch hold hpc
                    refine Or.inr (Or.inr ⟨ch, hpc, ?_⟩)
                    rcases hrest with ⟨hmem, hnone⟩ | hsome
                    · refine Or.inl ⟨?_, ?_⟩
                      · simp only [if_pos rfl]
                        exact List.mem_append_left _ hmem
                      · show (if ch = s.eng.nextChan then none
                          else s.eng.chans ch) = none
                        rw [if_neg (by omega)]
                        exact hnone
                    · refine Or.inr ?_
                      show (if ch = s.eng.nextChan then none
                        else s.eng.chans ch) = some (some e)
                      rw [if_neg (by omega)]
                      exact hsome

/-- The return of the download call preserves the invariants and is only
possible for the unique in-flight fetcher. -/
theorem phase_finish (k : String) (n : Nat) (s s' : Sys) (i : Nat)
    (o2 : Outcome) (fc : Nat) (hb : BaseInv k n s) (hp : PhaseInv k s fc)
    (hs : sysStep s (.finishFetch i o2) = some s') :
    BaseInv k n s' ∧ PhaseInv k s' (fc + 1) := by
  simp only [sysStep] at hs
  cases hti : s.tasks[i]? with
  | none => rw [hti] at hs; cases hs
  | some t =>
      rw [hti] at hs
      obtain ⟨tk, tpc⟩ := t
      have htk : tk = k := hb.keys i _ hti
      rw [htk] at hti hs
      cases tpc with
      | ready => cases hs
      | fetched o => cases hs
      | waiting ch => cases hs
      | done o => cases hs
      | fetching =>
        have hilen : i < s.tasks.length := idx_lt _ _ _ hti
        rcases hp with ⟨hfc, hw, hc, hwl, hcn, hall⟩ |
          ⟨hfc, hw, hc, hcn, i0, t0, ht0, hpc0, hpass⟩ |
          ⟨hfc, hw, hcn, o, i0, t0, ht0, hpc0, hcach, hoth⟩ |
          ⟨hfc, hw, o, hcach, hall⟩
        · cases (hall i _ hti)
        · have hii0 : i = i0 := by
            by_contra hne
            rcases hpass i _ hne hti with hr | ⟨ch, hpc, _⟩
            · cases hr
            · cases hpc
          subst hii0
          cases o2 with
          | none =>
              simp only [Option.isNone_none, if_true] at hs
              cases hs
              refine ⟨⟨?_, ?_, hb.wbound, hb.wnodup, ?_, ?_⟩, ?_⟩
              · rw [List.length_set]; exact hb.tlen
              · intro j t hj
                rcases set_cases _ _ _ _ _ hilen hj with ⟨_, rfl⟩ | ⟨_, hold⟩
                · rfl
                · exact hb.keys j t hold
              · intro j t ch hj hpc
                rcases set_cases _ _ _ _ _ hilen hj with ⟨_, rfl⟩ | ⟨_, hold⟩
                · cases hpc
                · exact hb.tbound j t ch hold hpc
              · intro i1 j1 ti tj chi chj hne hti1 htj1 hpci hpcj
                rcases set_cases _ _ _ _ _ hilen hti1 with ⟨_, rfl⟩ | ⟨_, hold1⟩
                · cases hpci
                rcases set_cases _ _ _ _ _ hilen htj1 with ⟨_, rfl⟩ | ⟨_, hold2⟩
                · cases hpcj
                · exact hb.tdistinct i1 j1 ti tj chi chj hne hold1 hold2
                    hpci hpcj
              · refine Or.inr (Or.inr (Or.inl ⟨by omega, hw, hcn, none, i,
                  ⟨k, .fetched none⟩, List.getElem?_set_self hilen, rfl,
                  by simp, ?_⟩))
                intro j t2 hji hj
                rw [List.getElem?_set_ne fun e => hji e.symm] at hj
                exact Or.inl (hpass j t2 hji hj)
          | some e =>
              simp only [Option.isNone_some, Bool.false_eq_true, if_false] at hs
              cases hs
              refine ⟨⟨?_, ?_, hb.wbound, hb.wnodup, ?_, ?_⟩, ?_⟩
              · rw [List.length_set]; exact hb.tlen
              · intro j t hj
                rcases set_cases _ _ _ _ _ hilen hj with ⟨_, rfl⟩ | ⟨_, hold⟩
                · rfl
                · exact hb.keys j t hold
              · intro j t ch hj hpc
                rcases set_cases _ _ _ _ _ hilen hj with ⟨_, rfl⟩ | ⟨_, hold⟩
                · cases hpc
                · exact hb.tbound j t ch hold hpc
              · intro i1 j1 ti tj chi chj hne hti1 htj1 hpci hpcj
                rcases set_cases _ _ _ _ _ hilen hti1 with ⟨_, rfl⟩ | ⟨_, hold1⟩
                · cases hpci
                rcases set_cases _ _ _ _ _ hilen htj1 with ⟨_, rfl⟩ | ⟨_, hold2⟩
                · cases hpcj
                · exact hb.tdistinct i1 j1 ti tj chi chj hne hold1 hold2
                    hpci hpcj
              · refine Or.inr (Or.inr (Or.inl ⟨by omega, hw, hcn, some e, i,
                  ⟨k, .fetched (some e)⟩, List.getElem?_set_self hilen, rfl,
                  hc, ?_⟩))
                intro j t2 hji hj
                rw [List.getElem?_set_ne fun e2 => hji e2.symm] at hj
                exact Or.inl (hpass j t2 hji hj)
        · by_cases hne : i = i0
          · subst hne
            rw [hti] at ht0
            cases ht0
            cases hpc0
          · rcases hoth i _ hne hti with hpas | hdn
            · rcases hpas with hr | ⟨ch, hpc, _⟩
              · cases hr
              · cases hpc
            · cases hdn.2
        · rcases hall i _ hti with hr | hd | ⟨ch, hpc, _⟩
          · cases hr
          · cases hd
          · cases hpc

/-- The notify critical section preserves the invariants: the single outcome
is delivered to every accumulated waiter and the waiter list is removed. -/
theorem phase_notify (k : String) (n : Nat) (s s' : Sys) (i : Nat) (fc : Nat)
    (hb : BaseInv k n s) (hp : PhaseInv k s fc)
    (hs : sysStep s (.notify i) = some s') :
    BaseInv k n s' ∧ PhaseInv k s' fc := by
  simp only [sysStep] at hs
  cases hti : s.tasks[i]? with
  | none => rw [hti] at hs; cases hs
  | some t =>
      rw [hti] at hs
      obtain ⟨tk, tpc⟩ := t
      have htk : tk = k := hb.keys i _ hti
      rw [htk] at hti hs
      cases tpc with
      | ready => cases hs
      | fetching => cases hs
      | waiting ch => cases hs
      | done o => cases hs
      | fetched o2 =>
        have hilen : i < s.tasks.length := idx_lt _ _ _ hti
        rcases hp with ⟨hfc, hw, hc, hwl, hcn, hall⟩ |
          ⟨hfc, hw, hc, hcn, i0, t0, ht0, hpc0, hpass⟩ |
          ⟨hfc, hw, hcn, o, i0, t0, ht0, hpc0, hcach, hoth⟩ |
          ⟨hfc, hw, o, hcach, hall⟩
        · cases (hall i _ hti)
        · by_cases hne : i = i0
          · subst hne
            rw [hti] at ht0
            cases ht0
            cases hpc0
          · rcases hpass i _ hne hti with hr | ⟨ch, hpc, _⟩
            · cases hr
            · cases hpc
        · have hii0 : i = i0 := by
            by_contra hne
            rcases hoth i _ hne hti with hpas | hdn
            · rcases hpas with hr | ⟨ch, hpc, _⟩
              · cases hr
              · cases hpc
            · cases hdn.2
          subst hii0
          have ho : o = o2 := by
            rw [hti] at ht0
            cases ht0
            cases hpc0
            rfl
          subst ho
          cases hs
          obtain ⟨hfc1, hfw, hfn⟩ := unsafeNotifyWaiters_fields s.eng k o
          refine ⟨⟨?_, ?_, ?_, ?_, ?_, ?_⟩, ?_⟩
          · rw [List.length_set]; exact hb.tlen
          · intro j t hj
            rcases set_cases _ _ _ _ _ hilen hj with ⟨_, rfl⟩ | ⟨_, hold⟩
            · rfl
            · exact hb.keys j t hold
          · intro c hcmem
            rw [show (⟨unsafeNotifyWaiters s.eng k o,
              s.tasks.set i ⟨k, .done o⟩⟩ : Sys).eng.waiters k =
                (unsafeNotifyWaiters s.eng k o).waiters k from rfl,
              unsafeNotifyWaiters_waiters] at hcmem
            cases hcmem
          · rw [show (⟨unsafeNotifyWaiters s.eng k o,
              s.tasks.set i ⟨k, .done o⟩⟩ : Sys).eng.waiters k =
                (unsafeNotifyWaiters s.eng k o).waiters k from rfl,
              unsafeNotifyWaiters_waiters]
            exact List.nodup_nil
          · intro j t ch hj hpc
            rcases set_cases _ _ _ _ _ hilen hj with ⟨_, rfl⟩ | ⟨_, hold⟩
            · cases hpc
            · show ch < (unsafeNotifyWaiters s.eng k o).nextChan
              rw [hfn]
              exact hb.tbound j t ch hold hpc
          · intro i1 j1 ti tj chi chj hne hti1 htj1 hpci hpcj
            rcases set_cases _ _ _ _ _ hilen hti1 with ⟨_, rfl⟩ | ⟨_, hold1⟩
            · cases hpci
            rcases set_cases _ _ _ _ _ hilen htj1 with ⟨_, rfl⟩ | ⟨_, hold2⟩
            · cases hpcj
            · exact hb.tdistinct i1 j1 ti tj chi chj hne hold1 hold2 hpci hpcj
          · refine Or.inr (Or.inr (Or.inr ⟨hfc, ?_, o, ?_, ?_⟩))
            · show (unsafeNotifyWaiters s.eng k o).workers k = true
              rw [hfw]; exact hw
            · show (unsafeNotifyWaiters s.eng k o).cached k = o.isNone
              rw [hfc1]; exact hcach
            · intro j t hj
              rcases set_cases _ _ _ _ _ hilen hj with ⟨_, rfl⟩ | ⟨hne, hold⟩
              · exact Or.inr (Or.inl rfl)
              · rcases hoth j t hne hold with hpas | hdn
                · rcases hpas with hr | ⟨ch, hpc, hmem⟩
                  · exact Or.inl hr
                  · refine Or.inr (Or.inr ⟨ch, hpc, Or.inr ?_⟩)
                    show (unsafeNotifyWaiters s.eng k o).chans ch = some o
                    rw [unsafeNotifyWaiters_chans, if_pos hmem]
                · rw [hdn.1]
                  exact Or.inr (Or.inl hdn.2)
        · rcases hall i _ hti with hr | hd | ⟨ch, hpc, _⟩
          · cases hr
          · cases hd
          · cases hpc

/-- A channel receive preserves the invariants: a parked caller can only
complete with the one delivered outcome. -/
theorem phase_recv (k : String) (n : Nat) (s s' : Sys) (i : Nat) (fc : Nat)
    (hb : BaseInv k n s) (hp : PhaseInv k s fc)
    (hs : sysStep s (.recv i) = some s') :
    BaseInv k n s' ∧ PhaseInv k s' fc := by
  simp only [sysStep] at hs
  cases hti : s.tasks[i]? with
  | none => rw [hti] at hs; cases hs
  | some t =>
      rw [hti] at hs
      obtain ⟨tk, tpc⟩ := t
      have htk : tk = k := hb.keys i _ hti
      rw [htk] at hti hs
      cases tpc with
      | ready => cases hs
      | fetching => cases hs
      | fetched o => cases hs
      | done o => cases hs
      | waiting ch =>
        have hilen : i < s.tasks.length := idx_lt _ _ _ hti
        rcases hp with ⟨hfc, hw, hc, hwl, hcn, hall⟩ |
          ⟨hfc, hw, hc, hcn, i0, t0, ht0, hpc0, hpass⟩ |
          ⟨hfc, hw, hcn, o, i0, t0, ht0, hpc0, hcach, hoth⟩ |
          ⟨hfc, hw, o, hcach, hall⟩
        · cases (hall i _ hti)
        · simp [hcn ch] at hs
        · simp [hcn ch] at hs
        · rcases hall i _ hti with hr | hd | ⟨ch2, hpc2, hrest⟩
          · cases hr
          · cases hd
          · have hch : ch2 = ch := by cases hpc2; rfl
            subst hch
            rcases hrest with ⟨_, hnone⟩ | hsome
            · simp [hnone] at hs
            · simp only [hsome] at hs
              cases hs
              refine ⟨⟨?_, ?_, hb.wbound, hb.wnodup, ?_, ?_⟩, ?_⟩
              · rw [List.length_set]; exact hb.tlen
              · intro j t hj
                rcases set_cases _ _ _ _ _ hilen hj with ⟨_, rfl⟩ | ⟨_, hold⟩
                · rfl
                · exact hb.keys j t hold
              · intro j t ch3 hj hpc
                rcases set_cases _ _ _ _ _ hilen hj with ⟨_, rfl⟩ | ⟨_, hold⟩
                · cases hpc
                · exact hb.tbound j t ch3 hold hpc
              · intro i1 j1 ti tj chi chj hne hti1 htj1 hpci hpcj
                rcases set_cases _ _ _ _ _ hilen hti1 with ⟨_, rfl⟩ | ⟨_, hold1⟩
                · cases hpci
                rcases set_cases _ _ _ _ _ hilen htj1 with ⟨_, rfl⟩ | ⟨_, hold2⟩
                · cases hpcj
                · exact hb.tdistinct i1 j1 ti tj chi chj hne hold1 hold2
                    hpci hpcj
              · refine Or.inr (Or.inr (Or.inr ⟨hfc, hw, o, hcach, ?_⟩))
                intro j t hj
                rcases set_cases _ _ _ _ _ hilen hj with ⟨_, rfl⟩ | ⟨hne, hold⟩
                · exact Or.inr (Or.inl rfl)
                · rcases hall j t hold with hr | hd | ⟨ch4, hpc4, hrest4⟩
                  · exact Or.inl hr
                  · exact Or.inr (Or.inl hd)
                  · have hch4 : ch4 ≠ ch2 := hb.tdistinct j i t
                      ⟨k, .waiting ch2⟩ ch4 ch2 hne hold hti hpc4 rfl
                    refine Or.inr (Or.inr ⟨ch4, hpc4, ?_⟩)
                    rcases hrest4 with ⟨hmem4, hnone4⟩ | hsome4
                    · refine Or.inl ⟨hmem4, ?_⟩
                      show (if ch4 = ch2 then none else s.eng.chans ch4) = none
                      rw [if_neg hch4]
                      exact hnone4
                    · refine Or.inr ?_
                      show (if ch4 = ch2 then none else s.eng.chans ch4) = some o
                      rw [if_neg hch4]
                      exact hsome4

/-- The fetch count of a schedule splits at its head. -/
theorem fetchCount_cons (l : Label) (ls : List Label) :
    fetchCount (l :: ls) = fetchCount [l] + fetchCount ls := by
  cases l with
  | enter i => simp [fetchCount]
  | finishFetch i o => simp [fetchCount]; omega
  | notify i => simp [fetchCount]
  | recv i => simp [fetchCount]

/-- Any single step preserves the invariants, counting completed fetches. -/
theorem phase_step (k : String) (n : Nat) (s s' : Sys) (l : Label) (fc : Nat)
    (hb : BaseInv k n s) (hp : PhaseInv k s fc)
    (hs : sysStep s l = some s') :
    BaseInv k n s' ∧ PhaseInv k s' (fc + fetchCount [l]) := by
  cases l with
  | enter i =>
      have := phase_enter k n s s' i fc hb hp hs
      simpa [fetchCount] using this
  | finishFetch i o =>
      have := phase_finish k n s s' i o fc hb hp hs
      simpa [fetchCount] using this
  | notify i =>
      have := phase_notify k n s s' i fc hb hp hs
      simpa [fetchCount] using this
  | recv i =>
      have := phase_recv k n s s' i fc hb hp hs
      simpa [fetchCount] using this

/-- Any whole schedule preserves the invariants, counting completed
fetches. -/
theorem phase_run (k : String) (n : Nat) (tr : List Label) (s s' : Sys)
    (fc : Nat) (hb : BaseInv k n s) (hp : PhaseInv k s fc)
    (hr : sysRun s tr = some s') :
    BaseInv k n s' ∧ PhaseInv k s' (fc + fetchCount tr) := by
  induction tr generalizing s fc with
  | nil =>
      cases hr
      simpa [fetchCount] using ⟨hb, hp⟩
  | cons l ls ih =>
      simp only [sysRun] at hr
      cases hstep : sysStep s l with
      | none => rw [hstep] at hr; cases hr
      | some s2 =>
          rw [hstep] at hr
          obtain ⟨hb2, hp2⟩ := phase_step k n s s2 l fc hb hp hstep
          have := ih s2 (fc + fetchCount [l]) hb2 hp2 hr
          rw [fetchCount_cons]
          rw [← Nat.add_assoc]
          exact this

/-- The initial system satisfies the base invariant. -/
theorem initSys_base (k : String) (n : Nat) : BaseInv k n (initSys k n) := by
  refine ⟨?_, ?_, ?_, ?_, ?_, ?_⟩
  · exact List.length_replicate n _
  · intro j t hj
    have := List.eq_of_mem_replicate (List.getElem?_mem hj)
    rw [this]
  · intro c hc
    cases hc
  · exact List.nodup_nil
  · intro j t ch hj hpc
    have := List.eq_of_mem_replicate (List.getElem?_mem hj)
    rw [this] at hpc
    cases hpc
  · intro i j ti tj chi chj hne hti htj hpci hpcj
    have h1 := List.eq_of_mem_replicate (List.getElem?_mem hti)
    rw [h1] at hpci
    cases hpci

/-- The initial system is in the first phase. -/
theorem initSys_phase (k : String) (n : Nat) : PhaseInv k (initSys k n) 0 := by
  refine Or.inl ⟨rfl, rfl, rfl, rfl, fun c => rfl, ?_⟩
  intro j t hj
  have := List.eq_of_mem_replicate (List.getElem?_mem hj)
  rw [this]

/-- C2: in every schedule of n concurrent DownloadAndWait callers for the
same uncached key, at most one download runs; and whenever every caller has
completed, exactly one Fetcher invocation happened and all callers received
the identical outcome (all success, or all the very same error). -/
theorem coalesced_single_fetch (k : String) (n : Nat) (tr : List Label)
    (s' : Sys) (hrun : sysRun (initSys k n) tr = some s') :
    fetchCount tr ≤ 1 ∧
    ((∀ t ∈ s'.tasks, ∃ o, t.pc = .done o) → 1 ≤ n →
      fetchCount tr = 1 ∧ ∃ o, ∀ t ∈ s'.tasks, t.pc = .done o) := by
  obtain ⟨hb, hp⟩ := phase_run k n tr (initSys k n) s' 0 (initSys_base k n)
    (initSys_phase k n) hrun
  rw [Nat.zero_add] at hp
  constructor
  · rcases hp with ⟨hfc, _⟩ | ⟨hfc, _⟩ | ⟨hfc, _⟩ | ⟨hfc, _⟩ <;> omega
  · intro hdone hn
    rcases hp with ⟨hfc, _, _, _, _, hall⟩ |
      ⟨hfc, _, _, _, i0, t0, ht0, hpc0, _⟩ |
      ⟨hfc, _, _, o, i0, t0, ht0, hpc0, _, _⟩ |
      ⟨hfc, hw, o, hcach, hall⟩
    · have hlen : 0 < s'.tasks.length := by rw [hb.tlen]; omega
      obtain ⟨t, ht⟩ := Option.isSome_iff_exists.mp
        (by rw [List.getElem?_eq_getElem hlen]; rfl :
          (s'.tasks[0]?).isSome = true)
      obtain ⟨o, hpc⟩ := hdone t (List.getElem?_mem ht)
      have := hall 0 t ht
      rw [this] at hpc
      cases hpc
    · obtain ⟨o, hpc⟩ := hdone t0 (List.getElem?_mem ht0)
      rw [hpc0] at hpc
      cases hpc
    · obtain ⟨o2, hpc⟩ := hdone t0 (List.getElem?_mem ht0)
      rw [hpc0] at hpc
      cases hpc
    · refine ⟨hfc, o, ?_⟩
      intro t ht
      obtain ⟨j, hj⟩ := List.mem_iff_getElem?.mp ht
      obtain ⟨o2, hpc⟩ := hdone t ht
      rcases hall j t hj with hr | hd | ⟨ch, hpcw, _⟩
      · rw [hr] at hpc; cases hpc
      · exact hd
      · rw [hpcw] at hpc; cases hpc

/-- Witness for coalesced_single_fetch: three concurrent callers, one
download, all three done with the same success outcome. -/
theorem coalesced_single_fetch_witness :
    fetchCount [Label.enter 0, .enter 1, .enter 2, .finishFetch 0 none,
      .notify 0, .recv 1, .recv 2] = 1 ∧
    ((sysRun (initSys "h" 3) [.enter 0, .enter 1, .enter 2, .finishFetch 0 none,
        .notify 0, .recv 1, .recv 2]).map fun s => s.tasks) =
      some [⟨"h", .done none⟩, ⟨"h", .done none⟩, ⟨"h", .done none⟩] := by
  cases hp : sysRun (initSys "h" 3) [.enter 0, .enter 1, .enter 2,
      .finishFetch 0 none, .notify 0, .recv 1, .recv 2] with
  | none =>
      have hsome : (sysRun (initSys "h" 3) [.enter 0, .enter 1, .enter 2,
          .finishFetch 0 none, .notify 0, .recv 1, .recv 2]).isSome = true := by
        decide
      rw [hp] at hsome
      cases hsome
  | some s' =>
      have htasks : s'.tasks =
          [⟨"h", .done none⟩, ⟨"h", .done none⟩, ⟨"h", .done none⟩] := by
        have h2 : ((sysRun (initSys "h" 3) [.enter 0, .enter 1, .enter 2,
            .finishFetch 0 none, .notify 0, .recv 1, .recv 2]).map
              fun s => s.tasks) =
            some [⟨"h", .done none⟩, ⟨"h", .done none⟩, ⟨"h", .done none⟩] := by
          decide
        rw [hp] at h2
        exact Option.some.inj h2
      have hdone : ∀ t ∈ s'.tasks, ∃ o, t.pc = TaskPC.done o := by
        rw [htasks]
        intro t ht
        simp only [List.mem_cons, List.not_mem_nil, or_false] at ht
        rcases ht with rfl | rfl | rfl <;> exact ⟨none, rfl⟩
      have hmain := (coalesced_single_fetch "h" 3 _ s' hp).2 hdone (by omega)
      exact ⟨hmain.1, by simp [htasks]⟩

/-- C5: in any reachable state in which the fetch for a key has completed
with its one outcome and notification is pending, the notify loop sends that
outcome to every accumulated waiter channel in the order they were added
(FIFO), each of the one-slot channels is empty at that moment (so no send
blocks the producer), the channels are pairwise distinct, every waiter slot
holds the outcome afterwards, and the waiter list of the key is removed. -/
theorem notify_waiters_fifo (k : String) (n : Nat) (tr : List Label)
    (s' : Sys) (hrun : sysRun (initSys k n) tr = some s') (i : Nat) (t : Task)
    (o : Outcome) (hti : s'.tasks[i]? = some t) (hpc : t.pc = .fetched o) :
    (notifyLoop o s'.eng (s'.eng.waiters k)).2 =
      (s'.eng.waiters k).map (fun ch => (ch, o)) ∧
    (∀ c ∈ s'.eng.waiters k, s'.eng.chans c = none) ∧
    (s'.eng.waiters k).Nodup ∧
    (∀ c ∈ s'.eng.waiters k,
      (unsafeNotifyWaiters s'.eng k o).chans c = some o) ∧
    (unsafeNotifyWaiters s'.eng k o).waiters k = [] := by
  obtain ⟨hb, hp⟩ := phase_run k n tr (initSys k n) s' 0 (initSys_base k n)
    (initSys_phase k n) hrun
  have hchans : ∀ c, s'.eng.chans c = none := by
    rcases hp with ⟨_, _, _, _, hcn, hall⟩ |
      ⟨_, _, _, hcn, i0, t0, ht0, hpc0, hpass⟩ |
      ⟨_, _, hcn, o2, i0, t0, ht0, hpc0, _, _⟩ |
      ⟨_, _, o2, _, hall⟩
    · exact hcn
    · exact hcn
    · exact hcn
    · rcases hall i t hti with hr | hd | ⟨ch, hpcw, _⟩
      · rw [hr] at hpc; cases hpc
      · rw [hd] at hpc; cases hpc
      · rw [hpcw] at hpc; cases hpc
  refine ⟨notifyLoop_trace o (s'.eng.waiters k) s'.eng,
    fun c _ => hchans c, hb.wnodup, ?_, unsafeNotifyWaiters_waiters s'.eng k o⟩
  intro c hc
  rw [unsafeNotifyWaiters_chans, if_pos hc]

/-- Witness for notify_waiters_fifo: a failed fetch with two accumulated
waiters; the loop sends the error to channels 0 then 1 in order, both slots
are empty beforehand, and the waiter list is cleared. -/
theorem notify_waiters_fifo_witness :
    ((sysRun (initSys "h" 3) [.enter 0, .enter 1, .enter 2,
        .finishFetch 0 (some "remote: 502 Bad Gateway")]).map fun s =>
      ((notifyLoop (some "remote: 502 Bad Gateway") s.eng
          (s.eng.waiters "h")).2,
        (s.eng.waiters "h").map (fun c => s.eng.chans c),
        (unsafeNotifyWaiters s.eng "h"
          (some "remote: 502 Bad Gateway")).waiters "h")) =
      some ([(0, some "remote: 502 Bad Gateway"),
        (1, some "remote: 502 Bad Gateway")], [none, none], []) := by
  cases hp : sysRun (initSys "h" 3) [.enter 0, .enter 1, .enter 2,
      .finishFetch 0 (some "remote: 502 Bad Gateway")] with
  | none =>
      have hsome : (sysRun (initSys "h" 3) [.enter 0, .enter 1, .enter 2,
          .finishFetch 0 (some "remote: 502 Bad Gateway")]).isSome = true := by
        decide
      rw [hp] at hsome
      cases hsome
  | some s' =>
      have hti : s'.tasks[0]? =
          some ⟨"h", .fetched (some "remote: 502 Bad Gateway")⟩ := by
        have h2 : ((sysRun (initSys "h" 3) [.enter 0, .enter 1, .enter 2,
            .finishFetch 0 (some "remote: 502 Bad Gateway")]).map
              fun s => s.tasks[0]?) =
            some (some ⟨"h", .fetched (some "remote: 502 Bad Gateway")⟩) := by
          decide
        rw [hp] at h2
        exact Option.some.inj h2
      have hwl : s'.eng.waiters "h" = [0, 1] := by
        have h2 : ((sysRun (initSys "h" 3) [.enter 0, .enter 1, .enter 2,
            .finishFetch 0 (some "remote: 502 Bad Gateway")]).map
              fun s => s.eng.waiters "h") = some [0, 1] := by
          decide
        rw [hp] at h2
        exact Option.some.inj h2
      have h5 := notify_waiters_fifo "h" 3 _ s' hp 0 _
        (some "remote: 502 Bad Gateway") hti rfl
      simp only [Option.map_some', Option.some.injEq, Prod.mk.injEq]
      refine ⟨?_, ?_, h5.2.2.2.2⟩
      · rw [h5.1, hwl]
        rfl
      · rw [hwl]
        have h0 := h5.2.1 0 (by rw [hwl]; simp)
        have h1 := h5.2.1 1 (by rw [hwl]; simp)
        simp [h0, h1]

end GithubMirror
